import Mathlib

/-!
# go-mnist-experiment: a shallow embedding of `main.go`

The Go program reads a CSV manifest, turns 28x28 PNG images into feature
vectors with one-hot targets, trains a go-deep network and dumps it to
`dump.bin`.  The definitions below follow `main.go` function by function.

Conventions of the embedding
* a Go run-time panic (index out of range, explicit `panic(err)`) is the
  `Except.error` branch of a result;
* a `float64` value is the rational it denotes, or one of the IEEE results of
  a division by zero (the extra constructors of `F64`); every `float64`
  operation rounds its exact result to the nearest value with a 53-bit
  significand, ties to even (`F64.round`);
* library code that is not part of the repository is a parameter:
  `strconv.ParseInt` and `os.Open` with `image.Decode` are function
  arguments, the file system and the go-deep network of `train` are the
  fields of the record `Deep`;
* the order in which Go iterates over a map is not fixed: the loop over the
  map takes the sequence of entries it visits, and the claims hold for every
  permutation of the entries of the map.
-/

namespace MnistExperiment

/-! ## `indexOfMax` (main.go, lines 83-93) -/

section IndexOfMax

/- The elements are compared with `>` only.  On `float64` values other than
`NaN` this comparison is a total preorder (`-0` and `+0` compare equal), which
is all that is assumed of `α`. -/
variable {α : Type} [Preorder α] [DecidableRel (fun a b : α => a < b)]
  [IsTotal α (fun a b => a ≤ b)]

/-- One iteration of the loop body of `indexOfMax`: the state is
`(maxIdx, maxVal)`, the loop variable is `i`, and the element read is
`arr[i+1]` (always in range inside the loop; `d` is never used). -/
def indexOfMaxStep (arr : List α) (d : α) (st : Nat × α) (i : Nat) : Nat × α :=
  if arr.getD (i + 1) d > st.2 then (i + 1, arr.getD (i + 1) d) else st

/-- The function `indexOfMax`: `none` is the index-out-of-range panic of `arr[0]` on an
empty slice; otherwise the loop `for i := 0; i < len(arr)-1; i++` is run from
the state `(0, arr[0])` and `maxIdx` is returned. -/
def indexOfMax (arr : List α) : Option Nat :=
  match arr with
  | [] => none
  | a0 :: _ =>
    some ((List.range (arr.length - 1)).foldl (indexOfMaxStep arr a0) (0, a0)).1

end IndexOfMax

/-! ## Constants (main.go, lines 18-34) -/

def iterations : Nat := 5

def csvHeaderOrigin : Nat := 0
def csvHeaderGroup : Nat := 1
def csvHeaderLabel : Nat := 2
def csvHeaderFile : Nat := 3

def img28x28 : Nat := 28

/-! ## Values of type `float64` -/

/-- Round to the nearest integer, a tie goes to the even neighbour. -/
def roundHalfEven (y : ℚ) : ℤ :=
  if y - ⌊y⌋ < 1 / 2 then ⌊y⌋
  else if 1 / 2 < y - ⌊y⌋ then ⌊y⌋ + 1
  else if ⌊y⌋ % 2 = 0 then ⌊y⌋ else ⌊y⌋ + 1

/-- The exponent of the unit in the last place of a 53-bit significand for
the binade of `q`: `2^e ≤ |q| < 2^(e+1)` gives `e - 52`. -/
def ulpExp (q : ℚ) : ℤ := Int.log 2 |q| - 52

/-- The `float64` nearest to the exact result `q` of an operation (IEEE 754
round to nearest, ties to even).  The exponent is not bounded: the function
agrees with binary64 on magnitudes in `[2^-1022, 2^1024)`, which hold every
value that lines 147-152 compute from 32-bit channel values. -/
def F64.round (q : ℚ) : ℚ :=
  if q = 0 then 0 else (roundHalfEven (q / 2 ^ ulpExp q) : ℚ) * 2 ^ ulpExp q

/-- The result of a `float64` computation: a finite value, given by the
rational it denotes, or one of the three non-finite IEEE results. -/
inductive F64 where
  | fin (q : ℚ)
  | posInf
  | negInf
  | nan
  deriving DecidableEq

/-- IEEE division of two finite values: a zero divisor gives `NaN` for `0/0`
and a signed infinity otherwise (Go does not panic on a float division by
zero); any other quotient is rounded. -/
def F64.div (x y : ℚ) : F64 :=
  if y = 0 then
    if x = 0 then F64.nan else if 0 < x then F64.posInf else F64.negInf
  else F64.fin (F64.round (x / y))

/-- The value lies in the closed interval `[0,1]` (false for the non-finite values). -/
def F64.inUnit : F64 → Prop
  | F64.fin q => 0 ≤ q ∧ q ≤ 1
  | _ => False

instance (v : F64) : Decidable v.inUnit := by
  cases v <;> unfold F64.inUnit <;> infer_instance

/-- The value lies in the closed interval `[0,hi]` (false for the non-finite values). -/
def F64.inRange (hi : ℚ) : F64 → Prop
  | F64.fin q => 0 ≤ q ∧ q ≤ hi
  | _ => False

instance (hi : ℚ) (v : F64) : Decidable (v.inRange hi) := by
  cases v <;> unfold F64.inRange <;> infer_instance

/-! ## Images and the featurizer loop (main.go, lines 143-155) -/

/-- What `Color.RGBA()` returns: four `uint32` channel values. -/
structure RGBA where
  r : Nat
  g : Nat
  b : Nat
  a : Nat
  deriving DecidableEq

/-- A decoded image: `At x y` is the colour `img.At(x, y)`. -/
structure Image where
  At : Nat → Nat → RGBA

/-- The expression `float64(c)/float64(255)` of lines 147 and 152: the
conversions are exact and the division rounds. -/
def channel (c : Nat) : ℚ := F64.round ((c : ℚ) / 255)

/-- The body of the inner loop (lines 145-153) for one pixel: the value that
is appended to `imgArr`.  The two additions of line 152 are done from left to
right, and each of them, the division by 3 and the division by `alpha` round. -/
def pixelValue (p : RGBA) : F64 :=
  let alpha := channel p.a
  if p.r = 0 ∧ p.b = 0 ∧ p.g = 0 then F64.fin 0
  else
    F64.div
      (F64.round (F64.round (F64.round (channel p.r + channel p.g) + channel p.b) / 3))
      alpha

/-- The nested loops of lines 143-155: `x` is the outer loop variable, `y` the
inner one, and every iteration appends one value to `imgArr`. -/
def imgLoop (img : Image) : List F64 :=
  (List.range img28x28).foldl
    (fun imgArr x =>
      (List.range img28x28).foldl
        (fun imgArr y => imgArr ++ [pixelValue (img.At x y)]) imgArr)
    []

/-! ## `getTransformedImage` (main.go, lines 120-166) -/

structure TransformedImagesWithResult where
  Images : List F64
  Value : List F64
  FilePath : String
  deriving DecidableEq

/-- The files the program can open: `os.Open` followed by `image.Decode`.
An error of either call is the argument of `panic(err)`. -/
abbrev Files := String → Except String Image

/-- The slice literal of line 130. -/
def valuesArrInit : List F64 :=
  [F64.fin 0, F64.fin 0, F64.fin 0, F64.fin 0, F64.fin 0,
   F64.fin 0, F64.fin 0, F64.fin 0, F64.fin 0, F64.fin 0]

/-- The body of the `range imageResult` loop (lines 130-163) for one map
entry.  `valuesArr[value] = 1` panics when `value` is not an index of the
ten-element slice. -/
def transformEntry (fs : Files) (filePath : String) (value : Int) :
    Except String TransformedImagesWithResult :=
  let valuesArr := valuesArrInit
  match fs filePath with
  | Except.error err => Except.error err
  | Except.ok img =>
    let imgArr := imgLoop img
    if 0 ≤ value ∧ value < (valuesArr.length : Int) then
      Except.ok
        { Images := imgArr
          Value := valuesArr.set value.toNat (F64.fin 1)
          FilePath := filePath }
    else Except.error "index out of range"

/-- The `range imageResult` loop with its accumulator `transformedImages`,
over the entries in the order the iteration visits them. -/
def getTransformedImageLoop (fs : Files) :
    List (String × Int) → List TransformedImagesWithResult →
      Except String (List TransformedImagesWithResult)
  | [], transformedImages => Except.ok transformedImages
  | (filePath, value) :: rest, transformedImages =>
    match transformEntry fs filePath value with
    | Except.error err => Except.error err
    | Except.ok t => getTransformedImageLoop fs rest (transformedImages ++ [t])

/-- The function `getTransformedImage`.  The argument is the sequence of entries that
`range imageResult` yields; Go leaves the order of a map iteration
unspecified, so it is some permutation of the entries of the map. -/
def getTransformedImage (fs : Files) (entries : List (String × Int)) :
    Except String (List TransformedImagesWithResult) :=
  getTransformedImageLoop fs entries []

/-! ## The manifest loop of `main` (main.go, lines 50-63) -/

/-- A Go `map[string]int64` as an association list with pairwise distinct keys. -/
abbrev ImageResult := List (String × Int)

/-- The assignment `m[k] = v`: overwrite the entry of `k`, or add one. -/
def mapSet : ImageResult → String → Int → ImageResult
  | [], k, v => [(k, v)]
  | (k', v') :: rest, k, v =>
    if k' = k then (k, v) :: rest else (k', v') :: mapSet rest k v

/-- The loop `for _, r := range records` of lines 52-61, from the map built
so far.  `parseInt s` is `strconv.ParseInt(s, 10, 64)`; indexing a record
beyond its fields panics. -/
def buildImageResultLoop (parseInt : String → Except String Int) :
    List (List String) → ImageResult → Except String ImageResult
  | [], imageResult => Except.ok imageResult
  | r :: rest, imageResult =>
    match r[csvHeaderOrigin]? with
    | none => Except.error "index out of range"
    | some origin =>
      if origin = "mnist" then
        match r[csvHeaderLabel]? with
        | none => Except.error "index out of range"
        | some label =>
          match parseInt label with
          | Except.error err => Except.error err
          | Except.ok parsed =>
            match r[csvHeaderFile]? with
            | none => Except.error "index out of range"
            | some file =>
              buildImageResultLoop parseInt rest
                (mapSet imageResult ("./data/numbers/" ++ file) parsed)
      else buildImageResultLoop parseInt rest imageResult

/-- Lines 50-61: the map `imageResult` built from the CSV records. -/
def buildImageResult (parseInt : String → Except String Int)
    (records : List (List String)) : Except String ImageResult :=
  buildImageResultLoop parseInt records []

/-- A manifest row `[origin, group, label, file]`. -/
structure Row where
  origin : String
  group : String
  label : String
  file : String
  deriving DecidableEq

/-- The CSV record of a row. -/
def Row.fields (r : Row) : List String := [r.origin, r.group, r.label, r.file]

/-- The rows of a manifest that the loop uses. -/
def mnistRows (manifest : List Row) : List Row :=
  manifest.filter (fun r => r.origin = "mnist")

/-- The key under which line 59 stores a row. -/
def Row.path (r : Row) : String := "./data/numbers/" ++ r.file

/-- The one-hot vector of a label in `[0,9]`. -/
def oneHot (l : Nat) : List F64 :=
  (List.range 10).map (fun i => if i = l then F64.fin 1 else F64.fin 0)

/-! ## Training (main.go, lines 168-263) -/

/-- A `training.Example` of go-deep. -/
structure Example where
  Input : List F64
  Response : List F64
  deriving DecidableEq

/-- The function `transformForNeuro` (lines 216-222). -/
def transformForNeuro (transformedImages : List TransformedImagesWithResult) :
    List Example :=
  transformedImages.foldl
    (fun data transformedImage =>
      data ++ [{ Input := transformedImage.Images, Response := transformedImage.Value }])
    []

/-- The calls that leave the repository: the file system and the go-deep
library.  `N` is `*deep.Neural` and `D` is `deep.Dump`.  A call that can
panic or return an error has an `Except` result; `trainerTrain` gives the
state of the network when `trainer.Train` stops, and the panic it stopped
with, if any.  A library call that ends the process or never returns is not
part of the model. -/
structure Deep (N D : Type) where
  readFile : Except String (List Nat)
  jsonUnmarshal : List Nat → Except String D
  fromDump : D → N
  newNeural : N
  numWeights : N → Nat
  trainerTrain : N → List Example → List Example → Nat → N × Option String
  predict : N → List F64 → Except String (List F64)
  marshal : N → Except String (List Nat)
  create : Except String Unit
  write : List Nat → Except String Unit

/-- The observable steps of a run of `train`, in program order.  The event
`println s` is a line of text `s` (builtin `println`, `log`, `fmt.Println`);
`printlnErr args` is the builtin `println` applied to the strings `args` and
then to an error value, which it prints as a pair of addresses. -/
inductive Event (N : Type) where
  | println (s : String)
  | printlnErr (args : List String)
  | newNeural
  | numWeights (k : Nat)
  | trainerTrain (data test : List Example) (its : Nat)
  | report (filePath : String) (value out : List F64)
  | marshal (n : N)
  | dump (data : List Nat)
  | create
  | write (data : List Nat)
  | close
  | fatal (msg : String)
  deriving DecidableEq

/-- How a function stops: it returns, it panics, or the process exits
(`log.Fatal`). -/
inductive Outcome where
  | returned
  | panicked (err : String)
  | exited
  deriving DecidableEq

structure Run (N : Type) where
  events : List (Event N)
  outcome : Outcome

/-- The function `Unmarshal` (lines 257-263). -/
def Unmarshal {N D : Type} (env : Deep N D) (bytes : List Nat) : Except String N :=
  match env.jsonUnmarshal bytes with
  | Except.error err => Except.error err
  | Except.ok dump => Except.ok (env.fromDump dump)

/-- The function `loadNeuroFromDump` (lines 224-240): the returned pointer (`none` is
`nil`) and what was printed. -/
def loadNeuroFromDump {N D : Type} (env : Deep N D) : Option N × List (Event N) :=
  match env.readFile with
  | Except.error _ =>
    (none, [Event.println "Dump file can't be read :(", Event.printlnErr []])
  | Except.ok dumpFile =>
    match Unmarshal env dumpFile with
    | Except.error _ =>
      (none, [Event.printlnErr ["Can't unmarshal dump file"]])
    | Except.ok unmarshal =>
      (some unmarshal, [Event.println "Neural used from dump file."])

/-- Lines 172-193 of `train`: the call of `loadNeuroFromDump` and the
`if n == nil` that constructs a network with `deep.NewNeural`. -/
def loadOrInit {N D : Type} (env : Deep N D) : N × List (Event N) :=
  match loadNeuroFromDump env with
  | (none, printed) => (env.newNeural, printed ++ [Event.newNeural])
  | (some n, printed) => (n, printed)

/-- The function `dump` (lines 242-255). -/
def dump {N D : Type} (env : Deep N D) (data : List Nat) : Run N :=
  match env.create with
  | Except.error _ =>
    { events := [Event.dump data, Event.println "dumping...",
        Event.fatal "Couldn't open file"]
      outcome := Outcome.exited }
  | Except.ok _ =>
    match env.write data with
    | Except.error err =>
      { events := [Event.dump data, Event.println "dumping...", Event.create,
          Event.println err, Event.close]
        outcome := Outcome.returned }
    | Except.ok _ =>
      { events := [Event.dump data, Event.println "dumping...", Event.create,
          Event.write data, Event.close]
        outcome := Outcome.returned }

/-- The deferred closure of lines 197-203, run on the network `n` as it is
when `train` is left. -/
def persist {N D : Type} (env : Deep N D) (n : N) : Run N :=
  match env.marshal n with
  | Except.error err =>
    { events := [Event.marshal n], outcome := Outcome.panicked err }
  | Except.ok dumpData =>
    { events := Event.marshal n :: (dump env dumpData).events
      outcome := (dump env dumpData).outcome }

/-- One report line (212 or 213): `transformedImages[i]` and `data[i]` panic
when `i` is not an index, and `n.Predict` may panic. -/
def reportLine {N D : Type} (env : Deep N D) (n : N)
    (transformedImages : List TransformedImagesWithResult) (data : List Example)
    (i : Nat) : Except String (Event N) :=
  match transformedImages[i]? with
  | none => Except.error "index out of range"
  | some t =>
    match data[i]? with
    | none => Except.error "index out of range"
    | some ex =>
      match env.predict n ex.Input with
      | Except.error err => Except.error err
      | Except.ok out => Except.ok (Event.report t.FilePath t.Value out)

/-- What the statements after the `defer` (lines 205-213) leave behind. -/
structure Body (N : Type) where
  events : List (Event N)
  outcome : Outcome
  net : N

/-- Lines 205-213: the epoch loop `trainer.Train` and the two report lines. -/
def trainBody {N D : Type} (env : Deep N D) (n : N)
    (transformedImages : List TransformedImagesWithResult)
    (data test : List Example) : Body N :=
  match env.trainerTrain n data test iterations with
  | (n1, some err) =>
    { events := [Event.trainerTrain data test iterations]
      outcome := Outcome.panicked err, net := n1 }
  | (n1, none) =>
    match reportLine env n1 transformedImages data 0 with
    | Except.error err =>
      { events := [Event.trainerTrain data test iterations]
        outcome := Outcome.panicked err, net := n1 }
    | Except.ok e0 =>
      match reportLine env n1 transformedImages data 5 with
      | Except.error err =>
        { events := [Event.trainerTrain data test iterations, e0]
          outcome := Outcome.panicked err, net := n1 }
      | Except.ok e5 =>
        { events := [Event.trainerTrain data test iterations, e0, e5]
          outcome := Outcome.returned, net := n1 }

/-- How a function with one deferred call stops: a panic or an exit of the
deferred call wins, otherwise the outcome of the body stands. -/
def afterDefer : Outcome → Outcome → Outcome
  | body, Outcome.returned => body
  | _, Outcome.panicked err => Outcome.panicked err
  | _, Outcome.exited => Outcome.exited

/-- The function `train` (lines 168-214).  The `defer` is registered before the epoch
loop, so its closure runs whatever the outcome of lines 205-213. -/
def train {N D : Type} (env : Deep N D)
    (transformedImages : List TransformedImagesWithResult) : Run N :=
  let data := transformForNeuro transformedImages
  let test := transformForNeuro transformedImages
  let init := loadOrInit env
  let n := init.1
  let logged := [Event.numWeights (env.numWeights n)]
  let body := trainBody env n transformedImages data test
  let deferred := persist env body.net
  { events := init.2 ++ logged ++ body.events ++ deferred.events
    outcome := afterDefer body.outcome deferred.outcome }

/-- The network that the deferred closure of `train` sees: the one of
`loadOrInit` after `trainer.Train` has worked on it. -/
def trainedNet {N D : Type} (env : Deep N D)
    (transformedImages : List TransformedImagesWithResult) : N :=
  (env.trainerTrain (loadOrInit env).1 (transformForNeuro transformedImages)
    (transformForNeuro transformedImages) iterations).1

/-- The label of a row as line 54 parses it (`0` when it does not parse). -/
def Row.value (parseInt : String → Except String Int) (r : Row) : Int :=
  match parseInt r.label with
  | Except.ok parsed => parsed
  | Except.error _ => 0

/-- The map entry that line 59 stores for a row. -/
def Row.entry (parseInt : String → Except String Int) (r : Row) : String × Int :=
  (r.path, r.value parseInt)

/-! ## Concrete inputs -/

/-- A fully transparent image: every channel of every pixel is zero. -/
def clearImage : Image := { At := fun _ _ => { r := 0, g := 0, b := 0, a := 0 } }

/-- An opaque black image. -/
def blackImage : Image := { At := fun _ _ => { r := 0, g := 0, b := 0, a := 65535 } }

/-- An opaque white image. -/
def whiteImage : Image :=
  { At := fun _ _ => { r := 65535, g := 65535, b := 65535, a := 65535 } }

/-- A faint white image: every pixel is white with the 8-bit alpha 25, which
`NRGBA.RGBA()` reports as `255 * 257 * 25 / 255 = 6425` in all four channels. -/
def faintImage : Image :=
  { At := fun _ _ => { r := 6425, g := 6425, b := 6425, a := 6425 } }

/-- A directory that holds the single readable image `img3.png`. -/
def oneFile : Files := fun filePath =>
  if filePath = "./data/numbers/img3.png" then Except.ok blackImage
  else Except.error "open: no such file or directory"

/-- A directory in which every path opens as the opaque black image. -/
def anyFile : Files := fun _ => Except.ok blackImage

/-- A row of another origin. -/
def shoeRow : Row :=
  { origin := "fashion", group := "train", label := "7", file := "shoe.png" }

/-- The row of the end-to-end scenario. -/
def img3Row : Row :=
  { origin := "mnist", group := "train", label := "3", file := "img3.png" }

/-- A row of another origin that names the file of `img3Row` and has a label
that does not parse. -/
def strayRow : Row :=
  { origin := "fashion", group := "test", label := "x", file := "img3.png" }

/-- The manifest of the end-to-end scenario, between two rows of another origin. -/
def scenarioManifest : List Row := [shoeRow, img3Row, strayRow]

/-- Two `mnist` rows that name the same file with different labels. -/
def dupManifest : List Row :=
  [{ origin := "mnist", group := "train", label := "3", file := "img3.png" },
   { origin := "mnist", group := "train", label := "5", file := "img3.png" }]

/-- The record that the scenario row yields: the opaque black image of
`img3.png` with the target of label 3. -/
def img3Record : TransformedImagesWithResult :=
  { Images := imgLoop blackImage
    Value := valuesArrInit.set 3 (F64.fin 1)
    FilePath := "./data/numbers/img3.png" }

/-- The record of an opaque black image with label `l`. -/
def recordOf (name : String) (l : Nat) : TransformedImagesWithResult :=
  { Images := imgLoop blackImage, Value := oneHot l, FilePath := name }

/-- A dataset of six records. -/
def sixExamples : List TransformedImagesWithResult :=
  [recordOf "./data/numbers/0.png" 0, recordOf "./data/numbers/1.png" 1,
   recordOf "./data/numbers/2.png" 2, recordOf "./data/numbers/3.png" 3,
   recordOf "./data/numbers/4.png" 4, recordOf "./data/numbers/5.png" 5]

/-- A dataset of three records: the report line 213 has no record 5 to print. -/
def threeExamples : List TransformedImagesWithResult :=
  [recordOf "./data/numbers/0.png" 0, recordOf "./data/numbers/1.png" 1,
   recordOf "./data/numbers/2.png" 2]

/-- A first run: no `dump.bin`, every library call succeeds.  A network is
the number of epochs it has been trained for. -/
def firstRunEnv : Deep Nat Unit :=
  { readFile := Except.error "open ./dump.bin: no such file or directory"
    jsonUnmarshal := fun _ => Except.error "unexpected end of JSON input"
    fromDump := fun _ => 100
    newNeural := 0
    numWeights := fun _ => 669706
    trainerTrain := fun n _ _ its => (n + its, none)
    predict := fun _ _ => Except.ok (oneHot 0)
    marshal := fun n => Except.ok [n]
    create := Except.ok ()
    write := fun _ => Except.ok () }

/-- A run that finds a `dump.bin` whose two bytes are not a JSON document. -/
def corruptEnv : Deep Nat Unit :=
  { firstRunEnv with readFile := Except.ok [123, 34] }

/-- A run in which `Marshal` rejects the trained network, as `json.Marshal`
does for a weight that is `NaN`. -/
def nanEnv : Deep Nat Unit :=
  { firstRunEnv with marshal := fun _ => Except.error "json: unsupported value: NaN" }

/-- What `strconv.ParseInt(s, 10, 64)` returns on one-digit strings; other
strings are not used by the examples. -/
def parseDigit (s : String) : Except String Int :=
  if s = "0" then Except.ok 0 else if s = "1" then Except.ok 1
  else if s = "2" then Except.ok 2 else if s = "3" then Except.ok 3
  else if s = "4" then Except.ok 4 else if s = "5" then Except.ok 5
  else if s = "6" then Except.ok 6 else if s = "7" then Except.ok 7
  else if s = "8" then Except.ok 8 else if s = "9" then Except.ok 9
  else Except.error "strconv.ParseInt: invalid syntax"

end MnistExperiment

namespace MnistExperiment

/-! ## Properties of `indexOfMax` -/

section IndexOfMaxProofs

theorem le_of_not_lt_total {α : Type} [Preorder α] [IsTotal α (fun a b => a ≤ b)]
    {a b : α} (h : ¬ a < b) : b ≤ a := by
  rcases IsTotal.total (r := fun a b : α => a ≤ b) a b with h1 | h1
  · by_contra h2
    exact h (lt_of_le_not_le h1 h2)
  · exact h1

variable {α : Type} [Preorder α] [DecidableRel (fun a b : α => a < b)]
  [IsTotal α (fun a b => a ≤ b)]

/-- Loop invariant of `indexOfMax` after `k` iterations: `maxVal` is the
element at `maxIdx`, it bounds the first `k+1` elements, and it is strictly
above everything before `maxIdx`. -/
theorem indexOfMax_loop_inv (arr : List α) (d : α) (k : Nat) :
    ((List.range k).foldl (indexOfMaxStep arr d) (0, arr.getD 0 d)).1 ≤ k ∧
    arr.getD ((List.range k).foldl (indexOfMaxStep arr d) (0, arr.getD 0 d)).1 d
      = ((List.range k).foldl (indexOfMaxStep arr d) (0, arr.getD 0 d)).2 ∧
    (∀ j, j ≤ k → arr.getD j d
      ≤ ((List.range k).foldl (indexOfMaxStep arr d) (0, arr.getD 0 d)).2) ∧
    (∀ j, j < ((List.range k).foldl (indexOfMaxStep arr d) (0, arr.getD 0 d)).1 →
      arr.getD j d
        < ((List.range k).foldl (indexOfMaxStep arr d) (0, arr.getD 0 d)).2) := by
  induction k with
  | zero =>
    refine ⟨le_refl _, rfl, ?_, ?_⟩
    · intro j hj
      have : j = 0 := by omega
      subst this
      exact le_refl _
    · intro j hj
      exact absurd hj (Nat.not_lt_zero j)
  | succ k ih =>
    rw [List.range_succ, List.foldl_append]
    generalize (List.range k).foldl (indexOfMaxStep arr d) (0, arr.getD 0 d) = st at ih
    obtain ⟨h1, h2, h3, h4⟩ := ih
    simp only [List.foldl_cons, List.foldl_nil, indexOfMaxStep]
    by_cases hgt : arr.getD (k + 1) d > st.2
    · rw [if_pos hgt]
      refine ⟨le_refl _, rfl, ?_, ?_⟩
      · intro j hj
        rcases Nat.lt_or_ge j (k + 1) with hlt | hge
        · exact le_of_lt (lt_of_le_of_lt (h3 j (by omega)) hgt)
        · have : j = k + 1 := by omega
          subst this
          exact le_refl _
      · intro j hj
        exact lt_of_le_of_lt (h3 j (by simpa using Nat.lt_succ_iff.mp hj)) hgt
    · rw [if_neg hgt]
      refine ⟨by omega, h2, ?_, h4⟩
      intro j hj
      rcases Nat.lt_or_ge j (k + 1) with hlt | hge
      · exact h3 j (by omega)
      · have : j = k + 1 := by omega
        subst this
        exact le_of_not_lt_total hgt

/-- C1: on a non-empty slice `indexOfMax` returns an index `i` of the slice
such that `arr[i]` is at least every element and strictly greater than every
element before `i`, that is, the first position of the maximum. -/
theorem indexOfMax_first_max (arr : List α) (hne : arr ≠ []) :
    ∃ i, indexOfMax arr = some i ∧ ∃ hi : i < arr.length,
      (∀ j (hj : j < arr.length), arr.get ⟨j, hj⟩ ≤ arr.get ⟨i, hi⟩) ∧
      (∀ j (hj : j < arr.length), j < i → arr.get ⟨j, hj⟩ < arr.get ⟨i, hi⟩) := by
  cases arr with
  | nil => exact absurd rfl hne
  | cons a0 rest =>
    have inv := indexOfMax_loop_inv (a0 :: rest) a0 rest.length
    have hd : (a0 :: rest).getD 0 a0 = a0 := rfl
    rw [hd] at inv
    have hlen : (a0 :: rest).length - 1 = rest.length := by simp
    have hres : indexOfMax (a0 :: rest)
        = some ((List.range rest.length).foldl
            (indexOfMaxStep (a0 :: rest) a0) (0, a0)).1 := by
      simp only [indexOfMax, hlen]
    rw [hres]
    generalize (List.range rest.length).foldl
      (indexOfMaxStep (a0 :: rest) a0) (0, a0) = st at inv
    obtain ⟨h1, h2, h3, h4⟩ := inv
    have hi : st.1 < (a0 :: rest).length := by
      simp only [List.length_cons]
      omega
    refine ⟨st.1, rfl, hi, ?_, ?_⟩
    · intro j hj
      have hj1 : j ≤ rest.length := by
        simp only [List.length_cons] at hj
        omega
      have hj2 := h3 j hj1
      rw [← h2, List.getD_eq_getElem _ _ hj, List.getD_eq_getElem _ _ hi] at hj2
      simpa [List.get_eq_getElem] using hj2
    · intro j hj hji
      have hj2 := h4 j hji
      rw [← h2, List.getD_eq_getElem _ _ hj, List.getD_eq_getElem _ _ hi] at hj2
      simpa [List.get_eq_getElem] using hj2

/-- C1, the worked case: the tie between positions 1 and 2 of
`[0.1, 0.9, 0.9, 0.05]` is resolved to position 1. -/
theorem indexOfMax_first_max_witness :
    indexOfMax ([1/10, 9/10, 9/10, 1/20] : List ℚ) = some 1 ∧
    ∃ i, indexOfMax ([1/10, 9/10, 9/10, 1/20] : List ℚ) = some i ∧
      ∃ hi : i < ([1/10, 9/10, 9/10, 1/20] : List ℚ).length,
      (∀ j (hj : j < ([1/10, 9/10, 9/10, 1/20] : List ℚ).length),
        ([1/10, 9/10, 9/10, 1/20] : List ℚ).get ⟨j, hj⟩
          ≤ ([1/10, 9/10, 9/10, 1/20] : List ℚ).get ⟨i, hi⟩) ∧
      (∀ j (hj : j < ([1/10, 9/10, 9/10, 1/20] : List ℚ).length), j < i →
        ([1/10, 9/10, 9/10, 1/20] : List ℚ).get ⟨j, hj⟩
          < ([1/10, 9/10, 9/10, 1/20] : List ℚ).get ⟨i, hi⟩) :=
  ⟨by norm_num [indexOfMax, indexOfMaxStep, List.range, List.range.loop],
   indexOfMax_first_max _ (by simp)⟩

end IndexOfMaxProofs

end MnistExperiment

namespace MnistExperiment

/-! ## The featurizer loop -/

/-- An inner loop appends the values of one row of pixels. -/
theorem foldl_append_singleton {β γ : Type} (f : β → γ) (l : List β) (acc : List γ) :
    l.foldl (fun acc y => acc ++ [f y]) acc = acc ++ l.map f := by
  induction l generalizing acc with
  | nil => simp
  | cons y ys ih => simp [ih]

/-- An outer loop appends one block per iteration. -/
theorem foldl_append_block {β γ : Type} (f : β → List γ) (l : List β) (acc : List γ) :
    l.foldl (fun acc x => acc ++ f x) acc = acc ++ (l.map f).flatten := by
  induction l generalizing acc with
  | nil => simp
  | cons y ys ih => simp [ih]

/-- Blocks of `n` values laid one after the other are indexed by `n*x + y`. -/
theorem join_range_blocks {γ : Type} (f : Nat → Nat → γ) (n m : Nat) :
    ((List.range m).map (fun x => (List.range n).map (f x))).flatten
      = (List.range (m * n)).map (fun i => f (i / n) (i % n)) := by
  induction m with
  | zero => simp
  | succ m ih =>
    rw [List.range_succ, List.map_append, List.flatten_append, ih, Nat.succ_mul,
      List.range_add, List.map_append]
    congr 1
    simp only [List.map_cons, List.map_nil, List.flatten_cons, List.flatten_nil,
      List.append_nil, List.map_map]
    apply List.map_congr_left
    intro y hy
    have hy2 : y < n := List.mem_range.mp hy
    have hn : 0 < n := by omega
    simp only [Function.comp]
    have h1 : (m * n + y) / n = m := by
      rw [Nat.mul_comm, Nat.mul_add_div hn, Nat.div_eq_of_lt hy2, Nat.add_zero]
    have h2 : (m * n + y) % n = y := by
      rw [Nat.mul_comm, Nat.mul_add_mod, Nat.mod_eq_of_lt hy2]
    rw [h1, h2]

/-- The nested loops as one list: position `i` holds the pixel `(i/28, i%28)`. -/
theorem imgLoop_eq_map (img : Image) :
    imgLoop img
      = (List.range (28 * 28)).map (fun i => pixelValue (img.At (i / 28) (i % 28))) := by
  unfold imgLoop img28x28
  have inner : ∀ (x : Nat) (imgArr : List F64),
      (List.range 28).foldl (fun imgArr y => imgArr ++ [pixelValue (img.At x y)]) imgArr
        = imgArr ++ (List.range 28).map (fun y => pixelValue (img.At x y)) :=
    fun x imgArr => foldl_append_singleton (fun y => pixelValue (img.At x y)) _ imgArr
  simp only [inner]
  rw [foldl_append_block (fun x => (List.range 28).map (fun y => pixelValue (img.At x y)))]
  rw [List.nil_append]
  exact join_range_blocks (fun x y => pixelValue (img.At x y)) 28 28

theorem imgLoop_length (img : Image) : (imgLoop img).length = 784 := by
  rw [imgLoop_eq_map]
  simp

theorem imgLoop_getElem? (img : Image) (x y : Nat) (hx : x < 28) (hy : y < 28) :
    (imgLoop img)[28 * x + y]? = some (pixelValue (img.At x y)) := by
  rw [imgLoop_eq_map, List.getElem?_map, List.getElem?_range (by omega)]
  have h1 : (28 * x + y) / 28 = x := by omega
  have h2 : (28 * x + y) % 28 = y := by omega
  simp [h1, h2]

theorem mem_imgLoop (img : Image) (v : F64) (hv : v ∈ imgLoop img) :
    ∃ x y, x < 28 ∧ y < 28 ∧ v = pixelValue (img.At x y) := by
  rw [imgLoop_eq_map] at hv
  obtain ⟨i, hi, rfl⟩ := List.mem_map.mp hv
  have hi2 : i < 28 * 28 := List.mem_range.mp hi
  exact ⟨i / 28, i % 28, by omega, by omega, rfl⟩

end MnistExperiment

namespace MnistExperiment

/-! ## One pixel -/

theorem pixelValue_zero_rgb (p : RGBA) (hr : p.r = 0) (hg : p.g = 0) (hb : p.b = 0) :
    pixelValue p = F64.fin 0 := by
  simp [pixelValue, hr, hg, hb]

/-! ## Rounding -/

theorem roundHalfEven_le (y : ℚ) (n : ℤ) (h : y ≤ n) : roundHalfEven y ≤ n := by
  have hf : ⌊y⌋ ≤ n := by
    have := Int.floor_mono h
    simpa using this
  unfold roundHalfEven
  rcases lt_or_eq_of_le hf with hlt | heq
  · split_ifs <;> omega
  · have hy : y = n := le_antisymm h (by rw [← heq]; exact Int.floor_le y)
    have h0 : y - ⌊y⌋ < 1 / 2 := by
      rw [heq, hy]; norm_num
    rw [if_pos h0]
    exact hf

theorem le_roundHalfEven (y : ℚ) (n : ℤ) (h : (n : ℚ) ≤ y) : n ≤ roundHalfEven y := by
  have hf : n ≤ ⌊y⌋ := Int.le_floor.mpr h
  unfold roundHalfEven
  split_ifs <;> omega

theorem roundHalfEven_mono (x y : ℚ) (h : x ≤ y) : roundHalfEven x ≤ roundHalfEven y := by
  have hfl : ⌊x⌋ ≤ ⌊y⌋ := Int.floor_mono h
  rcases lt_or_eq_of_le hfl with hlt | heq
  · have h1 : roundHalfEven x ≤ ⌊x⌋ + 1 := by
      unfold roundHalfEven
      split_ifs <;> omega
    have h2 : ⌊y⌋ ≤ roundHalfEven y := le_roundHalfEven y _ (Int.floor_le y)
    omega
  · unfold roundHalfEven
    rw [heq]
    have hxy : x - ⌊y⌋ ≤ y - ⌊y⌋ := by linarith
    split_ifs <;> first | omega | (exfalso; linarith)

theorem two_zpow_pos (k : ℤ) : (0 : ℚ) < 2 ^ k := zpow_pos (by norm_num) k

/-- The binade of a positive value. -/
theorem log_bounds (q : ℚ) (hq : 0 < q) :
    (2 : ℚ) ^ Int.log 2 q ≤ q ∧ q < (2 : ℚ) ^ (Int.log 2 q + 1) := by
  have h1 := Int.zpow_log_le_self (b := 2) (by norm_num) hq
  have h2 := Int.lt_zpow_succ_log_self (b := 2) (by norm_num) q
  exact ⟨by exact_mod_cast h1, by exact_mod_cast h2⟩

theorem log_eq_of_bounds (q : ℚ) (e : ℤ) (hlo : (2 : ℚ) ^ e ≤ q)
    (hhi : q < (2 : ℚ) ^ (e + 1)) : Int.log 2 q = e := by
  have hq : 0 < q := lt_of_lt_of_le (two_zpow_pos e) hlo
  have h1 : e ≤ Int.log 2 q :=
    (Int.zpow_le_iff_le_log (b := 2) (by norm_num) hq).mp (by exact_mod_cast hlo)
  have h2 : Int.log 2 q < e + 1 :=
    (Int.lt_zpow_iff_log_lt (b := 2) (by norm_num) hq).mp (by exact_mod_cast hhi)
  omega

theorem ulpExp_pos (q : ℚ) (hq : 0 < q) : ulpExp q = Int.log 2 q - 52 := by
  unfold ulpExp
  rw [abs_of_pos hq]

/-- The scaled value of a positive `q` lies in `[2^52, 2^53)`. -/
theorem scaled_bounds (q : ℚ) (hq : 0 < q) :
    ((2 ^ 52 : ℤ) : ℚ) ≤ q / 2 ^ ulpExp q ∧ q / 2 ^ ulpExp q < ((2 ^ 53 : ℤ) : ℚ) := by
  obtain ⟨h1, h2⟩ := log_bounds q hq
  rw [ulpExp_pos q hq]
  have hk := two_zpow_pos (Int.log 2 q - 52)
  constructor
  · rw [le_div_iff₀ hk]
    have : ((2 ^ 52 : ℤ) : ℚ) * 2 ^ (Int.log 2 q - 52) = 2 ^ Int.log 2 q := by
      rw [zpow_sub₀ (by norm_num)]
      norm_num
      field_simp
    rw [this]
    exact h1
  · rw [div_lt_iff₀ hk]
    have : ((2 ^ 53 : ℤ) : ℚ) * 2 ^ (Int.log 2 q - 52) = 2 ^ (Int.log 2 q + 1) := by
      rw [zpow_sub₀ (by norm_num), zpow_add₀ (by norm_num)]
      norm_num
      field_simp
      ring
    rw [this]
    exact h2

theorem round_pos_eq (q : ℚ) (hq : 0 < q) :
    F64.round q = (roundHalfEven (q / 2 ^ ulpExp q) : ℚ) * 2 ^ ulpExp q := by
  unfold F64.round
  rw [if_neg (ne_of_gt hq)]

theorem round_zero : F64.round 0 = 0 := by
  unfold F64.round
  rw [if_pos rfl]

theorem round_nonneg (q : ℚ) (hq : 0 ≤ q) : 0 ≤ F64.round q := by
  rcases eq_or_lt_of_le hq with h0 | hpos
  · rw [← h0, round_zero]
  · rw [round_pos_eq q hpos]
    apply mul_nonneg _ (le_of_lt (two_zpow_pos _))
    have h := le_roundHalfEven (q / 2 ^ ulpExp q) 0
      (by
        simp only [Int.cast_zero]
        exact div_nonneg hq (le_of_lt (two_zpow_pos _)))
    exact_mod_cast h

/-- A positive value rounds to at least the start of its binade. -/
theorem pow_le_round (q : ℚ) (hq : 0 < q) : (2 : ℚ) ^ Int.log 2 q ≤ F64.round q := by
  rw [round_pos_eq q hq]
  have h := le_roundHalfEven (q / 2 ^ ulpExp q) (2 ^ 52) (scaled_bounds q hq).1
  have hc : ((2 ^ 52 : ℤ) : ℚ) ≤ (roundHalfEven (q / 2 ^ ulpExp q) : ℚ) := by
    exact_mod_cast h
  have hk := two_zpow_pos (ulpExp q)
  calc (2 : ℚ) ^ Int.log 2 q = ((2 ^ 52 : ℤ) : ℚ) * 2 ^ ulpExp q := by
        rw [ulpExp_pos q hq, zpow_sub₀ (by norm_num)]
        norm_num
        field_simp
    _ ≤ _ := mul_le_mul_of_nonneg_right hc (le_of_lt hk)

theorem round_pos (q : ℚ) (hq : 0 < q) : 0 < F64.round q :=
  lt_of_lt_of_le (two_zpow_pos _) (pow_le_round q hq)

/-- Rounding never crosses a value `m * 2^j` with `m < 2^53`: such a value is a
`float64`, and a value below it rounds to a `float64` that is not above it. -/
theorem round_le_of_le (x : ℚ) (m : ℕ) (j : ℤ) (hx : 0 < x) (hm : m < 2 ^ 53)
    (h : x ≤ (m : ℚ) * 2 ^ j) : F64.round x ≤ (m : ℚ) * 2 ^ j := by
  obtain ⟨h1, _⟩ := log_bounds x hx
  have hlt : (2 : ℚ) ^ Int.log 2 x < 2 ^ (53 + j) := by
    calc (2 : ℚ) ^ Int.log 2 x ≤ x := h1
      _ ≤ (m : ℚ) * 2 ^ j := h
      _ < (2 : ℚ) ^ (53 : ℤ) * 2 ^ j := by
          apply mul_lt_mul_of_pos_right _ (two_zpow_pos j)
          rw [show (2 : ℚ) ^ (53 : ℤ) = ((2 ^ 53 : ℕ) : ℚ) by norm_num]
          exact_mod_cast hm
      _ = 2 ^ (53 + j) := by rw [zpow_add₀ (by norm_num)]
  have hlog : Int.log 2 x < 53 + j := (zpow_lt_zpow_iff_right₀ (by norm_num)).mp hlt
  have hkj : ulpExp x ≤ j := by
    rw [ulpExp_pos x hx]
    omega
  obtain ⟨d, hd⟩ : ∃ d : ℕ, j = ulpExp x + d := ⟨(j - ulpExp x).toNat, by omega⟩
  have hk := two_zpow_pos (ulpExp x)
  have hc : (m : ℚ) * 2 ^ j = (((m * 2 ^ d : ℕ) : ℤ) : ℚ) * 2 ^ ulpExp x := by
    rw [hd, zpow_add₀ (by norm_num), zpow_natCast]
    push_cast
    ring
  rw [round_pos_eq x hx, hc]
  apply mul_le_mul_of_nonneg_right _ (le_of_lt hk)
  have hy : x / 2 ^ ulpExp x ≤ (((m * 2 ^ d : ℕ) : ℤ) : ℚ) := by
    rw [div_le_iff₀ hk, ← hc]
    exact h
  exact_mod_cast roundHalfEven_le _ _ hy


theorem round_le_of_le_top (x : ℚ) (m : ℕ) (j : ℤ) (hx : 0 < x) (hm : m ≤ 2 ^ 53)
    (h : x ≤ (m : ℚ) * 2 ^ j) : F64.round x ≤ (m : ℚ) * 2 ^ j := by
  rcases lt_or_eq_of_le hm with hlt | heq
  · exact round_le_of_le x m j hx hlt h
  · have hc : (m : ℚ) * 2 ^ j = ((2 ^ 52 : ℕ) : ℚ) * 2 ^ (j + 1) := by
      rw [heq, zpow_add₀ (by norm_num)]
      push_cast
      ring
    rw [hc] at h ⊢
    exact round_le_of_le x (2 ^ 52) (j + 1) hx (by norm_num) h

/-- The result of rounding a positive value is a normalised `float64`. -/
theorem round_rep (x : ℚ) (hx : 0 < x) :
    ∃ (m : ℕ) (j : ℤ), 2 ^ 52 ≤ m ∧ m < 2 ^ 53 ∧ F64.round x = (m : ℚ) * 2 ^ j := by
  obtain ⟨hlo, hhi⟩ := scaled_bounds x hx
  have h1 : (2 ^ 52 : ℤ) ≤ roundHalfEven (x / 2 ^ ulpExp x) := le_roundHalfEven _ _ hlo
  have h2 : roundHalfEven (x / 2 ^ ulpExp x) ≤ (2 ^ 53 : ℤ) :=
    roundHalfEven_le _ _ (le_of_lt hhi)
  rw [round_pos_eq x hx]
  generalize roundHalfEven (x / 2 ^ ulpExp x) = n at h1 h2
  rcases lt_or_eq_of_le h2 with hlt | heq
  · refine ⟨n.toNat, ulpExp x, by omega, by omega, ?_⟩
    have hn : ((n.toNat : ℕ) : ℤ) = n := Int.toNat_of_nonneg (by omega)
    have hq : ((n.toNat : ℕ) : ℚ) = (n : ℚ) := by exact_mod_cast congrArg (Int.cast (R := ℚ)) hn
    rw [hq]
  · refine ⟨2 ^ 52, ulpExp x + 1, le_refl _, by norm_num, ?_⟩
    rw [heq, zpow_add₀ (by norm_num)]
    push_cast
    ring

theorem round_mono (x y : ℚ) (hx : 0 < x) (h : x ≤ y) : F64.round x ≤ F64.round y := by
  have hy : 0 < y := lt_of_lt_of_le hx h
  have hlog : Int.log 2 x ≤ Int.log 2 y := Int.log_mono_right hx h
  rcases lt_or_eq_of_le hlog with hlt | heq
  · have h1 : x ≤ ((1 : ℕ) : ℚ) * 2 ^ Int.log 2 y := by
      have hx2 := (log_bounds x hx).2
      have hpow : (2 : ℚ) ^ (Int.log 2 x + 1) ≤ 2 ^ Int.log 2 y :=
        zpow_le_zpow_right₀ (by norm_num) (by omega)
      simp only [Nat.cast_one, one_mul]
      exact le_of_lt (lt_of_lt_of_le hx2 hpow)
    have h2 := round_le_of_le x 1 (Int.log 2 y) hx (by norm_num) h1
    simp only [Nat.cast_one, one_mul] at h2
    exact le_trans h2 (pow_le_round y hy)
  · have hk : ulpExp x = ulpExp y := by
      rw [ulpExp_pos x hx, ulpExp_pos y hy, heq]
    rw [round_pos_eq x hx, round_pos_eq y hy, hk]
    have hpos := two_zpow_pos (ulpExp y)
    apply mul_le_mul_of_nonneg_right _ (le_of_lt hpos)
    have hdiv : x / 2 ^ ulpExp y ≤ y / 2 ^ ulpExp y :=
      div_le_div_of_nonneg_right h (le_of_lt hpos)
    exact_mod_cast roundHalfEven_mono _ _ hdiv

theorem roundHalfEven_near (y : ℚ) (m : ℤ) (h1 : (m : ℚ) - 1 / 2 < y)
    (h2 : y < (m : ℚ) + 1 / 2) : roundHalfEven y = m := by
  unfold roundHalfEven
  rcases le_or_lt (m : ℚ) y with hge | hlt
  · have hf : ⌊y⌋ = m := Int.floor_eq_iff.mpr ⟨hge, by linarith⟩
    rw [hf, if_pos (by linarith)]
  · have hf : ⌊y⌋ = m - 1 := Int.floor_eq_iff.mpr ⟨by push_cast; linarith, by push_cast; linarith⟩
    rw [hf]
    have hfrac : ¬ (y - ((m - 1 : ℤ) : ℚ) < 1 / 2) := by push_cast; linarith
    have hfrac2 : 1 / 2 < y - ((m - 1 : ℤ) : ℚ) := by push_cast; linarith
    rw [if_neg hfrac, if_pos hfrac2]
    omega

theorem roundHalfEven_tie (y : ℚ) (f : ℤ) (h : y = (f : ℚ) + 1 / 2) :
    roundHalfEven y = if f % 2 = 0 then f else f + 1 := by
  unfold roundHalfEven
  have hf : ⌊y⌋ = f := Int.floor_eq_iff.mpr ⟨by linarith, by linarith⟩
  rw [hf]
  have h1 : ¬ (y - (f : ℚ) < 1 / 2) := by linarith
  have h2 : ¬ (1 / 2 < y - (f : ℚ)) := by linarith
  rw [if_neg h1, if_neg h2]

/-- The rounded value of `q` in the binade with unit `2^k`, away from a tie. -/
theorem round_eval (q : ℚ) (k m : ℤ) (hlo : (2 : ℚ) ^ (k + 52) ≤ q)
    (hhi : q < (2 : ℚ) ^ (k + 52 + 1))
    (h1 : (2 * (m : ℚ) - 1) * 2 ^ k < 2 * q) (h2 : 2 * q < (2 * (m : ℚ) + 1) * 2 ^ k) :
    F64.round q = (m : ℚ) * 2 ^ k := by
  have hq : 0 < q := lt_of_lt_of_le (two_zpow_pos _) hlo
  have hk : ulpExp q = k := by
    rw [ulpExp_pos q hq, log_eq_of_bounds q (k + 52) hlo hhi]
    omega
  rw [round_pos_eq q hq, hk]
  have hpos := two_zpow_pos k
  have hn : roundHalfEven (q / 2 ^ k) = m := by
    apply roundHalfEven_near
    · rw [lt_div_iff₀ hpos]
      linarith
    · rw [div_lt_iff₀ hpos]
      linarith
  rw [hn]

/-- The rounded value of `q` when it is half-way between two neighbours. -/
theorem round_eval_tie (q : ℚ) (k f : ℤ) (hlo : (2 : ℚ) ^ (k + 52) ≤ q)
    (hhi : q < (2 : ℚ) ^ (k + 52 + 1))
    (h : 2 * q = (2 * (f : ℚ) + 1) * 2 ^ k) :
    F64.round q = ((if f % 2 = 0 then f else f + 1 : ℤ) : ℚ) * 2 ^ k := by
  have hq : 0 < q := lt_of_lt_of_le (two_zpow_pos _) hlo
  have hk : ulpExp q = k := by
    rw [ulpExp_pos q hq, log_eq_of_bounds q (k + 52) hlo hhi]
    omega
  rw [round_pos_eq q hq, hk]
  have hpos := two_zpow_pos k
  have hn : roundHalfEven (q / 2 ^ k) = if f % 2 = 0 then f else f + 1 := by
    apply roundHalfEven_tie
    rw [div_eq_iff (ne_of_gt hpos)]
    linarith
  rw [hn]


theorem round_le_rep (x : ℚ) (m : ℕ) (j : ℤ) (hx : 0 ≤ x) (hm : m ≤ 2 ^ 53)
    (h : x ≤ (m : ℚ) * 2 ^ j) : F64.round x ≤ (m : ℚ) * 2 ^ j := by
  rcases eq_or_lt_of_le hx with h0 | hpos
  · rw [← h0, round_zero]
    exact mul_nonneg (Nat.cast_nonneg m) (le_of_lt (two_zpow_pos j))
  · exact round_le_of_le_top x m j hpos hm h

theorem round_le_nat (x : ℚ) (c : ℕ) (hx : 0 ≤ x) (hc : c ≤ 2 ^ 53) (h : x ≤ (c : ℚ)) :
    F64.round x ≤ (c : ℚ) := by
  have := round_le_rep x c 0 hx hc (by simpa using h)
  simpa using this

theorem channel_nonneg (c : ℕ) : 0 ≤ channel c :=
  round_nonneg _ (div_nonneg (Nat.cast_nonneg c) (by norm_num))

theorem channel_pos (c : ℕ) (hc : 0 < c) : 0 < channel c :=
  round_pos _ (div_pos (by exact_mod_cast hc) (by norm_num))

theorem channel_mono (c d : ℕ) (h : c ≤ d) : channel c ≤ channel d := by
  unfold channel
  rcases Nat.eq_zero_or_pos c with h0 | hpos
  · rw [h0]
    simp only [Nat.cast_zero, zero_div, round_zero]
    exact round_nonneg _ (div_nonneg (Nat.cast_nonneg d) (by norm_num))
  · apply round_mono
    · exact div_pos (by exact_mod_cast hpos) (by norm_num)
    · exact div_le_div_of_nonneg_right (by exact_mod_cast h) (by norm_num)

/-- The quotient of line 152 for alpha-premultiplied channel values: at most
one unit in the last place above 1. -/
theorem quotient_le (r g b a : ℕ) (ha : 0 < a) (hr : r ≤ a) (hg : g ≤ a) (hb : b ≤ a) :
    F64.round (F64.round (F64.round (F64.round (channel r + channel g) + channel b) / 3)
      / channel a) ≤ 1 + 1 / 2 ^ 52 := by
  obtain ⟨m, j, hm1, hm2, hA⟩ := round_rep ((a : ℚ) / 255)
    (div_pos (by exact_mod_cast ha) (by norm_num))
  have hApos : 0 < channel a := channel_pos a ha
  have hR := channel_mono r a hr
  have hG := channel_mono g a hg
  have hB := channel_mono b a hb
  have hR0 := channel_nonneg r
  have hG0 := channel_nonneg g
  have hB0 := channel_nonneg b
  have hAe : channel a = (m : ℚ) * 2 ^ j := hA
  rw [hAe] at hR hG hB hApos ⊢
  generalize channel r = R at hR hR0
  generalize channel g = G at hG hG0
  generalize channel b = B at hB hB0
  have hj := two_zpow_pos j
  have hmq : ((2 ^ 52 : ℕ) : ℚ) ≤ (m : ℚ) := by exact_mod_cast hm1
  have hmpos : (0 : ℚ) < (m : ℚ) := lt_of_lt_of_le (by norm_num) hmq
  -- first sum
  have hs1 : F64.round (R + G) ≤ (m : ℚ) * 2 ^ (j + 1) := by
    apply round_le_rep _ m (j + 1) (by linarith) (le_of_lt hm2)
    rw [zpow_add₀ (by norm_num)]
    linarith
  have hs1' : F64.round (R + G) ≤ 2 * ((m : ℚ) * 2 ^ j) := by
    rw [zpow_add₀ (by norm_num)] at hs1
    linarith
  have hs10 : 0 ≤ F64.round (R + G) := round_nonneg _ (by linarith)
  generalize F64.round (R + G) = S1 at hs1' hs10
  -- second sum
  have hn : 3 * m ≤ 4 * ((3 * m + 3) / 4) := by omega
  have hn2 : (3 * m + 3) / 4 ≤ 2 ^ 53 := by omega
  have hn3 : 4 * ((3 * m + 3) / 4) ≤ 3 * m + 3 := by omega
  have hnq : (3 : ℚ) * m ≤ 4 * (((3 * m + 3) / 4 : ℕ) : ℚ) := by exact_mod_cast hn
  have hnq3 : 4 * (((3 * m + 3) / 4 : ℕ) : ℚ) ≤ 3 * (m : ℚ) + 3 := by exact_mod_cast hn3
  generalize ((3 * m + 3) / 4 : ℕ) = n at hn2 hnq hnq3
  have hs2 : F64.round (S1 + B) ≤ (n : ℚ) * 2 ^ (j + 2) := by
    apply round_le_rep _ n (j + 2) (by linarith) hn2
    rw [zpow_add₀ (by norm_num)]
    have : (n : ℚ) * (2 ^ j * 2 ^ (2 : ℤ)) = 4 * (n : ℚ) * 2 ^ j := by
      norm_num
      ring
    rw [this]
    nlinarith
  have hs2' : F64.round (S1 + B) ≤ (3 * (m : ℚ) + 3) * 2 ^ j := by
    rw [zpow_add₀ (by norm_num)] at hs2
    have : (n : ℚ) * (2 ^ j * 2 ^ (2 : ℤ)) = 4 * (n : ℚ) * 2 ^ j := by
      norm_num
      ring
    rw [this] at hs2
    nlinarith
  have hs20 : 0 ≤ F64.round (S1 + B) := round_nonneg _ (by linarith)
  generalize F64.round (S1 + B) = S2 at hs2' hs20
  -- mean
  have havg : F64.round (S2 / 3) ≤ ((m + 1 : ℕ) : ℚ) * 2 ^ j := by
    apply round_le_rep _ (m + 1) j (by positivity) (by omega)
    push_cast
    linarith
  have havg0 : 0 ≤ F64.round (S2 / 3) := round_nonneg _ (by positivity)
  generalize F64.round (S2 / 3) = V at havg havg0
  -- quotient
  have hone : (1 : ℚ) + 1 / 2 ^ 52 = ((2 ^ 52 + 1 : ℕ) : ℚ) * 2 ^ (-52 : ℤ) := by
    norm_num
  rw [hone]
  apply round_le_rep _ (2 ^ 52 + 1) (-52) (div_nonneg havg0 (le_of_lt hApos)) (by norm_num)
  rw [← hone, div_le_iff₀ hApos]
  push_cast at havg
  have h1m : (1 : ℚ) / 2 ^ 52 * (m : ℚ) ≥ 1 := by
    have : ((2 ^ 52 : ℕ) : ℚ) = 2 ^ 52 := by norm_num
    rw [this] at hmq
    rw [ge_iff_le, one_div, inv_mul_eq_div, le_div_iff₀ (by norm_num)]
    linarith
  nlinarith


theorem channel_full : channel 65535 = 257 := by
  unfold channel
  have h := round_eval ((65535 : ℕ) / 255 : ℚ) (-44) 4521191813414912
    (by norm_num) (by norm_num) (by norm_num) (by norm_num)
  rw [h]
  norm_num

/-- The quotient of line 152 for an opaque pixel: at most 1. -/
theorem quotient_le_one (r g b : ℕ) (hr : r ≤ 65535) (hg : g ≤ 65535) (hb : b ≤ 65535) :
    F64.round (F64.round (F64.round (F64.round (channel r + channel g) + channel b) / 3)
      / channel 65535) ≤ 1 := by
  have hR := channel_mono r 65535 hr
  have hG := channel_mono g 65535 hg
  have hB := channel_mono b 65535 hb
  have hR0 := channel_nonneg r
  have hG0 := channel_nonneg g
  have hB0 := channel_nonneg b
  rw [channel_full] at hR hG hB ⊢
  generalize channel r = R at hR hR0
  generalize channel g = G at hG hG0
  generalize channel b = B at hB hB0
  have hs1 : F64.round (R + G) ≤ ((514 : ℕ) : ℚ) :=
    round_le_nat _ 514 (by linarith) (by norm_num) (by push_cast; linarith)
  have hs10 : 0 ≤ F64.round (R + G) := round_nonneg _ (by linarith)
  generalize F64.round (R + G) = S1 at hs1 hs10
  have hs2 : F64.round (S1 + B) ≤ ((771 : ℕ) : ℚ) :=
    round_le_nat _ 771 (by linarith) (by norm_num) (by push_cast at hs1 ⊢; linarith)
  have hs20 : 0 ≤ F64.round (S1 + B) := round_nonneg _ (by linarith)
  generalize F64.round (S1 + B) = S2 at hs2 hs20
  have havg : F64.round (S2 / 3) ≤ ((257 : ℕ) : ℚ) :=
    round_le_nat _ 257 (by positivity) (by norm_num) (by push_cast at hs2 ⊢; linarith)
  have havg0 : 0 ≤ F64.round (S2 / 3) := round_nonneg _ (by positivity)
  generalize F64.round (S2 / 3) = V at havg havg0
  have h := round_le_nat (V / 257) 1 (by positivity) (by norm_num)
    (by
      push_cast at havg ⊢
      rw [div_le_iff₀ (by norm_num)]
      linarith)
  simpa using h

/-- White with the 8-bit alpha 25, which `RGBA()` reports as 6425 in all four
channels: the value computed by lines 147-152 is `1 + 2^-52`. -/
theorem pixelValue_faint :
    pixelValue { r := 6425, g := 6425, b := 6425, a := 6425 } = F64.fin (1 + 1 / 2 ^ 52) := by
  have hx : channel 6425 = 7092065589670450 * 2 ^ (-48 : ℤ) := by
    unfold channel
    have h := round_eval ((6425 : ℕ) / 255 : ℚ) (-48) 7092065589670450
      (by norm_num) (by norm_num) (by norm_num) (by norm_num)
    rw [h]
    norm_num
  have hs1 : F64.round (7092065589670450 * 2 ^ (-48 : ℤ) + 7092065589670450 * 2 ^ (-48 : ℤ))
      = 7092065589670450 * 2 ^ (-47 : ℤ) := by
    have h := round_eval
      (7092065589670450 * 2 ^ (-48 : ℤ) + 7092065589670450 * 2 ^ (-48 : ℤ) : ℚ)
      (-47) 7092065589670450
      (by norm_num) (by norm_num) (by norm_num) (by norm_num)
    rw [h]
    norm_num
  have hs2 : F64.round (7092065589670450 * 2 ^ (-47 : ℤ) + 7092065589670450 * 2 ^ (-48 : ℤ))
      = 5319049192252838 * 2 ^ (-46 : ℤ) := by
    have h := round_eval_tie
      (7092065589670450 * 2 ^ (-47 : ℤ) + 7092065589670450 * 2 ^ (-48 : ℤ) : ℚ)
      (-46) 5319049192252837
      (by norm_num) (by norm_num) (by norm_num)
    rw [h]
    norm_num
  have havg : F64.round (5319049192252838 * 2 ^ (-46 : ℤ) / 3)
      = 7092065589670451 * 2 ^ (-48 : ℤ) := by
    have h := round_eval (5319049192252838 * 2 ^ (-46 : ℤ) / 3 : ℚ)
      (-48) 7092065589670451
      (by norm_num) (by norm_num) (by norm_num) (by norm_num)
    rw [h]
    norm_num
  have hq : F64.round (7092065589670451 * 2 ^ (-48 : ℤ) / (7092065589670450 * 2 ^ (-48 : ℤ)))
      = 1 + 1 / 2 ^ 52 := by
    have h := round_eval
      (7092065589670451 * 2 ^ (-48 : ℤ) / (7092065589670450 * 2 ^ (-48 : ℤ)) : ℚ)
      (-52) 4503599627370497
      (by norm_num) (by norm_num) (by norm_num) (by norm_num)
    rw [h]
    norm_num
  have hne : (7092065589670450 : ℚ) * 2 ^ (-48 : ℤ) ≠ 0 := by norm_num
  simp only [pixelValue, F64.div, hx, hs1, hs2, havg, hq, if_neg hne]
  norm_num

/-- An alpha-premultiplied pixel has a value in `[0, 1 + 2^-52]`. -/
theorem pixelValue_inRange (p : RGBA) (hr : p.r ≤ p.a) (hg : p.g ≤ p.a) (hb : p.b ≤ p.a) :
    (pixelValue p).inRange (1 + 1 / 2 ^ 52) := by
  unfold pixelValue
  by_cases hz : p.r = 0 ∧ p.b = 0 ∧ p.g = 0
  · simp only [hz, and_self, if_true, F64.inRange]
    norm_num
  · have ha : 0 < p.a := by
      rcases Nat.eq_zero_or_pos p.a with h0 | hpos
      · exfalso
        apply hz
        omega
      · exact hpos
    have halpha : 0 < channel p.a := channel_pos p.a ha
    simp only [hz, if_false, F64.div, ne_of_gt halpha]
    unfold F64.inRange
    refine ⟨round_nonneg _ (div_nonneg (round_nonneg _ ?_) (le_of_lt halpha)),
      quotient_le p.r p.g p.b p.a ha hr hg hb⟩
    exact div_nonneg (round_nonneg _ (add_nonneg (round_nonneg _
      (add_nonneg (channel_nonneg _) (channel_nonneg _))) (channel_nonneg _))) (by norm_num)

/-- An opaque pixel has a value in `[0,1]`. -/
theorem pixelValue_inUnit_opaque (p : RGBA) (ha : p.a = 65535)
    (hr : p.r ≤ p.a) (hg : p.g ≤ p.a) (hb : p.b ≤ p.a) : (pixelValue p).inUnit := by
  rw [ha] at hr hg hb
  unfold pixelValue
  by_cases hz : p.r = 0 ∧ p.b = 0 ∧ p.g = 0
  · simp only [hz, and_self, if_true, F64.inUnit]
    norm_num
  · have halpha : 0 < channel p.a := channel_pos p.a (by omega)
    simp only [hz, if_false, F64.div, ne_of_gt halpha]
    unfold F64.inUnit
    rw [ha] at halpha ⊢
    refine ⟨round_nonneg _ (div_nonneg (round_nonneg _ ?_) (le_of_lt halpha)),
      quotient_le_one p.r p.g p.b hr hg hb⟩
    exact div_nonneg (round_nonneg _ (add_nonneg (round_nonneg _
      (add_nonneg (channel_nonneg _) (channel_nonneg _))) (channel_nonneg _))) (by norm_num)

end MnistExperiment

namespace MnistExperiment

/-! ## One map entry and the loop over the entries -/

theorem transformEntry_ok (fs : Files) (filePath : String) (value : Int) (img : Image)
    (hfs : fs filePath = Except.ok img) (h0 : 0 ≤ value) (h9 : value ≤ 9) :
    transformEntry fs filePath value
      = Except.ok
          { Images := imgLoop img
            Value := valuesArrInit.set value.toNat (F64.fin 1)
            FilePath := filePath } := by
  have hlt : value < ((valuesArrInit.length : Nat) : Int) := by
    have : valuesArrInit.length = 10 := rfl
    rw [this]
    omega
  simp only [transformEntry, hfs]
  rw [if_pos ⟨h0, hlt⟩]

theorem transformEntry_out_of_range (fs : Files) (filePath : String) (value : Int)
    (img : Image) (hfs : fs filePath = Except.ok img) (hout : value < 0 ∨ 9 < value) :
    transformEntry fs filePath value = Except.error "index out of range" := by
  have hlen : ((valuesArrInit.length : Nat) : Int) = 10 := rfl
  simp only [transformEntry, hfs]
  rw [if_neg]
  rw [hlen]
  omega

theorem transformEntry_unreadable (fs : Files) (filePath : String) (value : Int)
    (err : String) (hfs : fs filePath = Except.error err) :
    transformEntry fs filePath value = Except.error err := by
  simp only [transformEntry, hfs]

/-- The ten-element slice after `valuesArr[l] = 1`. -/
theorem valuesArr_set (l : Nat) (hl : l < 10) :
    (valuesArrInit.set l (F64.fin 1)).length = 10 ∧
    (valuesArrInit.set l (F64.fin 1))[l]? = some (F64.fin 1) ∧
    ∀ j, j < 10 → j ≠ l → (valuesArrInit.set l (F64.fin 1))[j]? = some (F64.fin 0) := by
  have hlen : valuesArrInit.length = 10 := rfl
  refine ⟨by simp [hlen], ?_, ?_⟩
  · simp [hlen, hl]
  · intro j hj hne
    rw [List.getElem?_set_ne (Ne.symm hne)]
    unfold valuesArrInit
    interval_cases j <;> rfl

theorem loop_ok (fs : Files) (es : List (String × Int))
    (ts acc : List TransformedImagesWithResult)
    (h : List.Forall₂ (fun e t => transformEntry fs e.1 e.2 = Except.ok t) es ts) :
    getTransformedImageLoop fs es acc = Except.ok (acc ++ ts) := by
  induction h generalizing acc with
  | nil => simp [getTransformedImageLoop]
  | cons hhead _ ih =>
    rename_i e t es ts
    obtain ⟨filePath, value⟩ := e
    simp only [getTransformedImageLoop]
    rw [hhead]
    simp only
    rw [ih]
    simp

theorem loop_ok_inv (fs : Files) (es : List (String × Int))
    (acc ds : List TransformedImagesWithResult)
    (h : getTransformedImageLoop fs es acc = Except.ok ds) :
    ∃ ts, List.Forall₂ (fun e t => transformEntry fs e.1 e.2 = Except.ok t) es ts ∧
      ds = acc ++ ts := by
  induction es generalizing acc with
  | nil =>
    simp only [getTransformedImageLoop, Except.ok.injEq] at h
    exact ⟨[], List.Forall₂.nil, by simp [h]⟩
  | cons e es ih =>
    obtain ⟨filePath, value⟩ := e
    simp only [getTransformedImageLoop] at h
    cases ht : transformEntry fs filePath value with
    | error err => simp [ht] at h
    | ok t =>
      rw [ht] at h
      obtain ⟨ts, hts, hds⟩ := ih _ h
      exact ⟨t :: ts, List.Forall₂.cons ht hts, by simp [hds]⟩

theorem loop_error_iff (fs : Files) (es : List (String × Int))
    (acc : List TransformedImagesWithResult) :
    (∃ err, getTransformedImageLoop fs es acc = Except.error err) ↔
      ∃ e ∈ es, ∃ err, transformEntry fs e.1 e.2 = Except.error err := by
  induction es generalizing acc with
  | nil => simp [getTransformedImageLoop]
  | cons e es ih =>
    obtain ⟨filePath, value⟩ := e
    simp only [getTransformedImageLoop]
    cases ht : transformEntry fs filePath value with
    | error err =>
      constructor
      · intro _
        exact ⟨(filePath, value), List.mem_cons_self _ _, err, ht⟩
      · intro _
        exact ⟨err, rfl⟩
    | ok t =>
      simp only
      rw [ih]
      constructor
      · rintro ⟨e, he, err, herr⟩
        exact ⟨e, List.mem_cons_of_mem _ he, err, herr⟩
      · rintro ⟨e, he, err, herr⟩
        rcases List.mem_cons.mp he with rfl | he2
        · simp only at herr
          rw [ht] at herr
          exact absurd herr (by simp)
        · exact ⟨e, he2, err, herr⟩

/-- With readable images and labels in `[0,9]` the loop returns one record
per entry, in iteration order, and each record is the one of its entry. -/
theorem getTransformedImage_total (fs : Files) (entries : List (String × Int))
    (hread : ∀ e ∈ entries, ∃ img, fs e.1 = Except.ok img)
    (hlab : ∀ e ∈ entries, 0 ≤ e.2 ∧ e.2 ≤ 9) :
    ∃ ds, getTransformedImage fs entries = Except.ok ds ∧
      List.Forall₂
        (fun e t => ∃ img, fs e.1 = Except.ok img ∧
          t = { Images := imgLoop img
                Value := valuesArrInit.set e.2.toNat (F64.fin 1)
                FilePath := e.1 })
        entries ds := by
  induction entries with
  | nil => exact ⟨[], rfl, List.Forall₂.nil⟩
  | cons e es ih =>
    obtain ⟨img, himg⟩ := hread e (List.mem_cons_self _ _)
    obtain ⟨h0, h9⟩ := hlab e (List.mem_cons_self _ _)
    obtain ⟨ds, hds, hall⟩ := ih (fun e he => hread e (List.mem_cons_of_mem _ he))
      (fun e he => hlab e (List.mem_cons_of_mem _ he))
    obtain ⟨ts, hts, hdsts⟩ := loop_ok_inv fs es [] ds hds
    have hhead := transformEntry_ok fs e.1 e.2 img himg h0 h9
    refine ⟨_ :: ds, ?_, List.Forall₂.cons ⟨img, himg, rfl⟩ hall⟩
    have := loop_ok fs (e :: es) (_ :: ts) [] (List.Forall₂.cons hhead hts)
    simp only [List.nil_append] at hdsts this
    rw [hdsts]
    exact this

end MnistExperiment

namespace MnistExperiment

/-! ## Claims about `getTransformedImage` -/

/-- C2: when the images are readable and the labels lie in `[0,9]`,
`getTransformedImage` returns one record per entry, and the target vector of
the record built for an entry labelled `l` has exactly 10 values, `1` at
index `l` and `0` at every other index. -/
theorem getTransformedImage_target_one_hot (fs : Files) (entries : List (String × Int))
    (hread : ∀ e ∈ entries, ∃ img, fs e.1 = Except.ok img)
    (hlab : ∀ e ∈ entries, 0 ≤ e.2 ∧ e.2 ≤ 9) :
    ∃ ds, getTransformedImage fs entries = Except.ok ds ∧
      List.Forall₂
        (fun e t => t.FilePath = e.1 ∧ t.Value.length = 10 ∧
          t.Value[e.2.toNat]? = some (F64.fin 1) ∧
          ∀ j, j < 10 → j ≠ e.2.toNat → t.Value[j]? = some (F64.fin 0))
        entries ds := by
  obtain ⟨ds, hds, hall⟩ := getTransformedImage_total fs entries hread hlab
  refine ⟨ds, hds, ?_⟩
  have hmem : List.Forall₂
      (fun e t => (0 ≤ e.2 ∧ e.2 ≤ 9) ∧ ∃ img, fs e.1 = Except.ok img ∧
          t = { Images := imgLoop img
                Value := valuesArrInit.set e.2.toNat (F64.fin 1)
                FilePath := e.1 })
      entries ds := by
    clear hds hread
    induction hall with
    | nil => exact List.Forall₂.nil
    | cons hhead _ ih =>
      exact List.Forall₂.cons ⟨hlab _ (List.mem_cons_self _ _), hhead⟩
        (ih (fun e he => hlab e (List.mem_cons_of_mem _ he)))
  refine List.Forall₂.imp ?_ hmem
  rintro e t ⟨⟨h0, h9⟩, img, _, rfl⟩
  have hl : e.2.toNat < 10 := by omega
  obtain ⟨h1, h2, h3⟩ := valuesArr_set e.2.toNat hl
  exact ⟨rfl, h1, h2, h3⟩

/-- C2 at the manifest row of the end-to-end scenario: label 3, file `img3.png`. -/
theorem getTransformedImage_target_one_hot_witness :
    ∃ ds, getTransformedImage oneFile [("./data/numbers/img3.png", 3)] = Except.ok ds ∧
      List.Forall₂
        (fun e t => t.FilePath = e.1 ∧ t.Value.length = 10 ∧
          t.Value[e.2.toNat]? = some (F64.fin 1) ∧
          ∀ j, j < 10 → j ≠ e.2.toNat → t.Value[j]? = some (F64.fin 0))
        [(("./data/numbers/img3.png", 3) : String × Int)] ds :=
  getTransformedImage_target_one_hot oneFile [("./data/numbers/img3.png", 3)]
    (by
      intro e he
      rw [List.mem_singleton] at he
      subst he
      exact ⟨blackImage, by simp [oneFile]⟩)
    (by
      intro e he
      rw [List.mem_singleton] at he
      subst he
      decide)

/-- C3: a pixel whose red, green and blue values are all zero is emitted as
exactly `0` by the featurizer loop, whatever its alpha value. -/
theorem zero_rgb_feature_is_zero (img : Image) (x y : Nat) (hx : x < 28) (hy : y < 28)
    (hr : (img.At x y).r = 0) (hg : (img.At x y).g = 0) (hb : (img.At x y).b = 0) :
    pixelValue (img.At x y) = F64.fin 0 ∧
    (imgLoop img)[28 * x + y]? = some (F64.fin 0) := by
  have hp := pixelValue_zero_rgb (img.At x y) hr hg hb
  refine ⟨hp, ?_⟩
  rw [imgLoop_getElem? img x y hx hy, hp]

/-- C3 on the fully transparent image (alpha is 0 as well), at pixel `(27, 5)`. -/
theorem zero_rgb_feature_is_zero_witness :
    (clearImage.At 27 5).a = 0 ∧
    pixelValue (clearImage.At 27 5) = F64.fin 0 ∧
    (imgLoop clearImage)[28 * 27 + 5]? = some (F64.fin 0) :=
  ⟨rfl, zero_rgb_feature_is_zero clearImage 27 5 (by decide) (by decide) rfl rfl rfl⟩

/-- C4: the feature vector of every image has exactly 784 values, the value
at index `28*x + y` is the one computed from the pixel at `(x, y)`, and the
record that `getTransformedImage` builds from a readable file carries this
vector. -/
theorem features_row_major (img : Image) :
    (imgLoop img).length = 784 ∧
    (∀ x y, x < 28 → y < 28 →
      (imgLoop img)[28 * x + y]? = some (pixelValue (img.At x y))) ∧
    (∀ (fs : Files) (filePath : String) (value : Int),
      fs filePath = Except.ok img → 0 ≤ value → value ≤ 9 →
      ∃ t, getTransformedImage fs [(filePath, value)] = Except.ok [t] ∧
        t.Images = imgLoop img) := by
  refine ⟨imgLoop_length img, fun x y hx hy => imgLoop_getElem? img x y hx hy, ?_⟩
  intro fs filePath value hfs h0 h9
  have h := transformEntry_ok fs filePath value img hfs h0 h9
  refine ⟨{ Images := imgLoop img
            Value := valuesArrInit.set value.toNat (F64.fin 1)
            FilePath := filePath }, ?_, ?_⟩
  · simp only [getTransformedImage, getTransformedImageLoop, h, List.nil_append]
  · simp only

/-- C4 on the opaque white image: 784 values, the value at index `28*3 + 4`
is the one of pixel `(3, 4)`, and the record built for label 0 carries the
vector. -/
theorem features_row_major_witness :
    (imgLoop whiteImage).length = 784 ∧
    (imgLoop whiteImage)[28 * 3 + 4]? = some (pixelValue (whiteImage.At 3 4)) ∧
    ∃ t, getTransformedImage (fun _ => Except.ok whiteImage) [("white.png", 0)]
        = Except.ok [t] ∧ t.Images = imgLoop whiteImage :=
  ⟨(features_row_major whiteImage).1,
   (features_row_major whiteImage).2.1 3 4 (by decide) (by decide),
   (features_row_major whiteImage).2.2 (fun _ => Except.ok whiteImage) "white.png" 0
     rfl (by decide) (by decide)⟩

/-- C5, as stated, fails: every pixel of `faintImage` reports the channel
values `(6425, 6425, 6425, 6425)`, alpha-premultiplied and in the 16-bit
range, and the first value of the feature vector that `getTransformedImage`
builds from it is `1 + 2^-52`, above 1; and the intensity `float64(r)/255` of
a full channel is `257`, not a value of `[0,1]`. -/
theorem features_in_unit_interval_counterexample :
    (∀ x y, (faintImage.At x y).r ≤ (faintImage.At x y).a ∧
      (faintImage.At x y).g ≤ (faintImage.At x y).a ∧
      (faintImage.At x y).b ≤ (faintImage.At x y).a ∧ (faintImage.At x y).a ≤ 65535) ∧
    getTransformedImage (fun _ => Except.ok faintImage) [("faint.png", 0)]
      = Except.ok [{ Images := imgLoop faintImage
                     Value := valuesArrInit.set 0 (F64.fin 1)
                     FilePath := "faint.png" }] ∧
    (imgLoop faintImage)[0]? = some (F64.fin (1 + 1 / 2 ^ 52)) ∧
    ¬ (F64.fin (1 + 1 / 2 ^ 52)).inUnit ∧
    channel 65535 = 257 := by
  refine ⟨fun x y => by simp [faintImage], rfl, ?_, ?_, channel_full⟩
  · rw [show (0 : Nat) = 28 * 0 + 0 from rfl,
      imgLoop_getElem? faintImage 0 0 (by decide) (by decide)]
    exact congrArg some pixelValue_faint
  · norm_num [F64.inUnit]

/-- C5, amended: when the channel values of every pixel are alpha-premultiplied
and in the 16-bit range (no colour channel above alpha, alpha at most 65535),
every value of the feature vector lies in `[0, 1 + 2^-52]`; when moreover
every pixel is opaque (alpha is 65535), every value lies in `[0,1]`; and the
record that `transformEntry` builds from the image carries this vector. -/
theorem features_in_unit_interval (img : Image)
    (hpre : ∀ x y, x < 28 → y < 28 →
      (img.At x y).r ≤ (img.At x y).a ∧ (img.At x y).g ≤ (img.At x y).a ∧
      (img.At x y).b ≤ (img.At x y).a ∧ (img.At x y).a ≤ 65535) :
    (∀ v ∈ imgLoop img, v.inRange (1 + 1 / 2 ^ 52)) ∧
    ((∀ x y, x < 28 → y < 28 → (img.At x y).a = 65535) →
      ∀ v ∈ imgLoop img, v.inUnit) ∧
    (∀ (fs : Files) (filePath : String) (value : Int) (t : TransformedImagesWithResult),
      fs filePath = Except.ok img → transformEntry fs filePath value = Except.ok t →
      t.Images = imgLoop img) := by
  refine ⟨?_, ?_, ?_⟩
  · intro v hv
    obtain ⟨x, y, hx, hy, rfl⟩ := mem_imgLoop img v hv
    obtain ⟨hr, hg, hb, _⟩ := hpre x y hx hy
    exact pixelValue_inRange _ hr hg hb
  · intro hsolid v hv
    obtain ⟨x, y, hx, hy, rfl⟩ := mem_imgLoop img v hv
    obtain ⟨hr, hg, hb, _⟩ := hpre x y hx hy
    exact pixelValue_inUnit_opaque _ (hsolid x y hx hy) hr hg hb
  · intro fs filePath value t hfs ht
    by_cases hrange : 0 ≤ value ∧ value ≤ 9
    · rw [transformEntry_ok fs filePath value img hfs hrange.1 hrange.2] at ht
      simp only [Except.ok.injEq] at ht
      rw [← ht]
    · rw [transformEntry_out_of_range fs filePath value img hfs (by omega)] at ht
      exact absurd ht (by simp)

/-- C5, amended, on the opaque white image: every feature value is in
`[0, 1 + 2^-52]` and, the image being opaque, in `[0,1]`. -/
theorem features_in_unit_interval_witness :
    (∀ x y, x < 28 → y < 28 →
      (whiteImage.At x y).r ≤ (whiteImage.At x y).a ∧
      (whiteImage.At x y).g ≤ (whiteImage.At x y).a ∧
      (whiteImage.At x y).b ≤ (whiteImage.At x y).a ∧ (whiteImage.At x y).a ≤ 65535) ∧
    (∀ v ∈ imgLoop whiteImage, v.inRange (1 + 1 / 2 ^ 52)) ∧
    (∀ v ∈ imgLoop whiteImage, v.inUnit) :=
  ⟨fun _ _ _ _ => by simp [whiteImage],
   (features_in_unit_interval whiteImage (fun _ _ _ _ => by simp [whiteImage])).1,
   (features_in_unit_interval whiteImage (fun _ _ _ _ => by simp [whiteImage])).2.1
     (fun _ _ _ _ => rfl)⟩

/-- C10: given readable and decodable images, `getTransformedImage` fails
(returns no record at all) exactly when some entry has a label outside
`[0,9]`, and the body of the loop fails on an entry exactly when the label of
that entry is outside `[0,9]`. -/
theorem getTransformedImage_fails_iff_label_out_of_range (fs : Files)
    (entries : List (String × Int))
    (hread : ∀ e ∈ entries, ∃ img, fs e.1 = Except.ok img) :
    ((∃ err, getTransformedImage fs entries = Except.error err) ↔
      ∃ e ∈ entries, e.2 < 0 ∨ 9 < e.2) ∧
    (∀ e ∈ entries, (∃ err, transformEntry fs e.1 e.2 = Except.error err) ↔
      (e.2 < 0 ∨ 9 < e.2)) := by
  have hentry : ∀ e ∈ entries, (∃ err, transformEntry fs e.1 e.2 = Except.error err) ↔
      (e.2 < 0 ∨ 9 < e.2) := by
    intro e he
    obtain ⟨img, himg⟩ := hread e he
    constructor
    · rintro ⟨err, herr⟩
      by_contra hin
      rw [transformEntry_ok fs e.1 e.2 img himg (by omega) (by omega)] at herr
      exact absurd herr (by simp)
    · intro hout
      exact ⟨_, transformEntry_out_of_range fs e.1 e.2 img himg hout⟩
  refine ⟨?_, hentry⟩
  unfold getTransformedImage
  rw [loop_error_iff]
  constructor
  · rintro ⟨e, he, herr⟩
    exact ⟨e, he, (hentry e he).mp herr⟩
  · rintro ⟨e, he, hout⟩
    exact ⟨e, he, (hentry e he).mpr hout⟩

/-- C10 on two entries with readable images: the label 10 of the second
makes the whole call fail, and the first entry alone does not. -/
theorem getTransformedImage_fails_iff_label_out_of_range_witness :
    getTransformedImage anyFile [("a.png", 3), ("b.png", 10)]
      = Except.error "index out of range" ∧
    (∃ ds, getTransformedImage anyFile [("a.png", 3)] = Except.ok ds) ∧
    ((∃ err, getTransformedImage anyFile [("a.png", 3), ("b.png", 10)]
        = Except.error err) ↔
      ∃ e ∈ [(("a.png", 3) : String × Int), ("b.png", 10)], e.2 < 0 ∨ 9 < e.2) ∧
    (∀ e ∈ [(("a.png", 3) : String × Int), ("b.png", 10)],
      (∃ err, transformEntry anyFile e.1 e.2 = Except.error err) ↔
      (e.2 < 0 ∨ 9 < e.2)) :=
  ⟨rfl, ⟨_, rfl⟩,
   getTransformedImage_fails_iff_label_out_of_range anyFile
    [("a.png", 3), ("b.png", 10)] (fun _ _ => ⟨blackImage, rfl⟩)⟩

end MnistExperiment

namespace MnistExperiment

/-! ## The manifest loop -/

theorem build_step (parseInt : String → Except String Int) (r : Row)
    (rest : List (List String)) (m : ImageResult) :
    buildImageResultLoop parseInt (r.fields :: rest) m
      = if r.origin = "mnist" then
          match parseInt r.label with
          | Except.error err => Except.error err
          | Except.ok parsed => buildImageResultLoop parseInt rest (mapSet m r.path parsed)
        else buildImageResultLoop parseInt rest m := by
  simp only [buildImageResultLoop, Row.fields, csvHeaderOrigin, csvHeaderLabel,
    csvHeaderFile, Row.path]
  rfl

/-- Rows of another origin leave the loop state untouched. -/
theorem build_filter (parseInt : String → Except String Int) (manifest : List Row)
    (m : ImageResult) :
    buildImageResultLoop parseInt (manifest.map Row.fields) m
      = buildImageResultLoop parseInt ((mnistRows manifest).map Row.fields) m := by
  induction manifest generalizing m with
  | nil => rfl
  | cons r rs ih =>
    by_cases hr : r.origin = "mnist"
    · have hf : mnistRows (r :: rs) = r :: mnistRows rs := by
        simp [mnistRows, hr]
      rw [hf, List.map_cons, List.map_cons, build_step, build_step]
      simp only [hr, if_true]
      cases parseInt r.label with
      | error err => rfl
      | ok parsed => exact ih _
    · have hf : mnistRows (r :: rs) = mnistRows rs := by
        simp [mnistRows, hr]
      rw [hf, List.map_cons, build_step]
      simp only [hr, if_false]
      exact ih _

theorem mem_mapSet (m : ImageResult) (k : String) (v : Int) (kv : String × Int)
    (h : kv ∈ mapSet m k v) : kv = (k, v) ∨ kv ∈ m := by
  induction m with
  | nil =>
    simp only [mapSet, List.mem_singleton] at h
    exact Or.inl h
  | cons e es ih =>
    obtain ⟨k1, v1⟩ := e
    simp only [mapSet] at h
    by_cases hk : k1 = k
    · rw [if_pos hk] at h
      rcases List.mem_cons.mp h with h1 | h2
      · exact Or.inl h1
      · exact Or.inr (List.mem_cons_of_mem _ h2)
    · rw [if_neg hk] at h
      rcases List.mem_cons.mp h with h1 | h2
      · exact Or.inr (h1 ▸ List.mem_cons_self _ _)
      · rcases ih h2 with h3 | h4
        · exact Or.inl h3
        · exact Or.inr (List.mem_cons_of_mem _ h4)

/-- Every entry of the map comes from the initial map or from an `mnist` row. -/
theorem build_entries (parseInt : String → Except String Int) (manifest : List Row)
    (m0 m : ImageResult)
    (h : buildImageResultLoop parseInt (manifest.map Row.fields) m0 = Except.ok m) :
    ∀ kv ∈ m, kv ∈ m0 ∨ ∃ r ∈ manifest, r.origin = "mnist" ∧ kv.1 = r.path ∧
      parseInt r.label = Except.ok kv.2 := by
  induction manifest generalizing m0 with
  | nil =>
    simp only [List.map_nil, buildImageResultLoop, Except.ok.injEq] at h
    subst h
    intro kv hkv
    exact Or.inl hkv
  | cons r rs ih =>
    rw [List.map_cons, build_step] at h
    by_cases hr : r.origin = "mnist"
    · simp only [hr, if_true] at h
      cases hp : parseInt r.label with
      | error err => simp [hp] at h
      | ok parsed =>
        rw [hp] at h
        intro kv hkv
        rcases ih _ h kv hkv with h1 | ⟨r2, hr2, ho, hk, hv⟩
        · rcases mem_mapSet _ _ _ _ h1 with h2 | h3
          · refine Or.inr ⟨r, List.mem_cons_self _ _, hr, ?_, ?_⟩
            · rw [h2]
            · rw [h2, hp]
          · exact Or.inl h3
        · exact Or.inr ⟨r2, List.mem_cons_of_mem _ hr2, ho, hk, hv⟩
    · simp only [hr, if_false] at h
      intro kv hkv
      rcases ih _ h kv hkv with h1 | ⟨r2, hr2, ho, hk, hv⟩
      · exact Or.inl h1
      · exact Or.inr ⟨r2, List.mem_cons_of_mem _ hr2, ho, hk, hv⟩

theorem transformEntry_filePath (fs : Files) (filePath : String) (value : Int)
    (t : TransformedImagesWithResult)
    (h : transformEntry fs filePath value = Except.ok t) : t.FilePath = filePath := by
  unfold transformEntry at h
  cases hfs : fs filePath with
  | error err => simp [hfs] at h
  | ok img =>
    simp only [hfs] at h
    split at h
    · simp only [Except.ok.injEq] at h
      rw [← h]
    · exact absurd h (by simp)

/-- The file path of every record is the key of an entry that was iterated. -/
theorem getTransformedImage_filePath (fs : Files) (entries : List (String × Int))
    (ds : List TransformedImagesWithResult)
    (h : getTransformedImage fs entries = Except.ok ds) :
    ∀ t ∈ ds, ∃ e ∈ entries, t.FilePath = e.1 := by
  obtain ⟨ts, hts, hds⟩ := loop_ok_inv fs entries [] ds h
  simp only [List.nil_append] at hds
  subst hds
  clear h
  induction hts with
  | nil =>
    intro t ht
    exact absurd ht (List.not_mem_nil t)
  | cons hhead _ ih =>
    intro t ht
    rcases List.mem_cons.mp ht with rfl | ht2
    · exact ⟨_, List.mem_cons_self _ _, transformEntry_filePath _ _ _ _ hhead⟩
    · obtain ⟨e, he, hte⟩ := ih t ht2
      exact ⟨e, List.mem_cons_of_mem _ he, hte⟩

end MnistExperiment

namespace MnistExperiment

/-! ## Claims about the manifest -/

/-- C8: a row whose origin is not "mnist" contributes nothing, wherever it
stands in the manifest: the map built in `main` (or the panic) is the same
with and without the row, every entry of the map comes from an "mnist" row
among the other rows, and so does the file path of every record that
`getTransformedImage` returns, for every order of iteration of the map. -/
theorem non_mnist_rows_contribute_nothing (parseInt : String → Except String Int)
    (xs ys : List Row) (r : Row) (hr : r.origin ≠ "mnist") :
    buildImageResult parseInt ((xs ++ r :: ys).map Row.fields)
      = buildImageResult parseInt ((xs ++ ys).map Row.fields) ∧
    ∀ m, buildImageResult parseInt ((xs ++ r :: ys).map Row.fields) = Except.ok m →
      (∀ kv ∈ m, ∃ r2 ∈ xs ++ ys, r2.origin = "mnist" ∧ kv.1 = r2.path ∧
        parseInt r2.label = Except.ok kv.2) ∧
      ∀ (fs : Files) (iter : List (String × Int))
        (ds : List TransformedImagesWithResult),
        iter.Perm m → getTransformedImage fs iter = Except.ok ds →
        ∀ t ∈ ds, ∃ r2 ∈ xs ++ ys, r2.origin = "mnist" ∧ t.FilePath = r2.path := by
  have hsame : buildImageResult parseInt ((xs ++ r :: ys).map Row.fields)
      = buildImageResult parseInt ((xs ++ ys).map Row.fields) := by
    unfold buildImageResult
    rw [build_filter parseInt (xs ++ r :: ys), build_filter parseInt (xs ++ ys)]
    have hf : mnistRows (xs ++ r :: ys) = mnistRows (xs ++ ys) := by
      simp [mnistRows, List.filter_append, List.filter_cons, hr]
    rw [hf]
  refine ⟨hsame, ?_⟩
  intro m hm
  rw [hsame] at hm
  have hkeys : ∀ kv ∈ m, ∃ r2 ∈ xs ++ ys, r2.origin = "mnist" ∧ kv.1 = r2.path ∧
      parseInt r2.label = Except.ok kv.2 := by
    intro kv hkv
    rcases build_entries parseInt (xs ++ ys) [] m hm kv hkv with h1 | h2
    · exact absurd h1 (List.not_mem_nil kv)
    · exact h2
  refine ⟨hkeys, ?_⟩
  intro fs iter ds hperm hds t ht
  obtain ⟨e, he, hte⟩ := getTransformedImage_filePath fs iter ds hds t ht
  obtain ⟨r2, hr2, ho, hk, _⟩ := hkeys e (hperm.mem_iff.mp he)
  exact ⟨r2, hr2, ho, by rw [hte, hk]⟩

/-- C8 on the scenario manifest: its first row has origin "fashion"; with or
without it the map holds the single entry of the "mnist" row, and the one
record of the dataset carries the path of that row. -/
theorem non_mnist_rows_contribute_nothing_witness :
    shoeRow.origin ≠ "mnist" ∧
    buildImageResult parseDigit (([] ++ shoeRow :: [img3Row, strayRow]).map Row.fields)
      = Except.ok [("./data/numbers/img3.png", 3)] ∧
    getTransformedImage oneFile [("./data/numbers/img3.png", 3)]
      = Except.ok [img3Record] ∧
    buildImageResult parseDigit (([] ++ shoeRow :: [img3Row, strayRow]).map Row.fields)
      = buildImageResult parseDigit (([] ++ [img3Row, strayRow]).map Row.fields) ∧
    (∀ kv ∈ [(("./data/numbers/img3.png", 3) : String × Int)],
      ∃ r2 ∈ [] ++ [img3Row, strayRow],
        r2.origin = "mnist" ∧ kv.1 = r2.path ∧ parseDigit r2.label = Except.ok kv.2) ∧
    (∀ t ∈ [img3Record], ∃ r2 ∈ [] ++ [img3Row, strayRow],
      r2.origin = "mnist" ∧ t.FilePath = r2.path) :=
  ⟨by decide, rfl, rfl,
   (non_mnist_rows_contribute_nothing parseDigit [] [img3Row, strayRow] shoeRow
      (by decide)).1,
   ((non_mnist_rows_contribute_nothing parseDigit [] [img3Row, strayRow] shoeRow
      (by decide)).2 [("./data/numbers/img3.png", 3)] rfl).1,
   ((non_mnist_rows_contribute_nothing parseDigit [] [img3Row, strayRow] shoeRow
      (by decide)).2 [("./data/numbers/img3.png", 3)] rfl).2 oneFile
      [("./data/numbers/img3.png", 3)] [img3Record] (List.Perm.refl _) rfl⟩

end MnistExperiment

namespace MnistExperiment

/-! ## One record per row -/

theorem path_injective (r r2 : Row) (h : r.path = r2.path) : r.file = r2.file := by
  unfold Row.path at h
  have hd := congrArg String.data h
  rw [String.data_append, String.data_append] at hd
  exact String.ext (List.append_cancel_left hd)

theorem mapSet_new (m : ImageResult) (k : String) (v : Int)
    (hk : k ∉ m.map Prod.fst) : mapSet m k v = m ++ [(k, v)] := by
  induction m with
  | nil => rfl
  | cons e es ih =>
    obtain ⟨k1, v1⟩ := e
    simp only [List.map_cons, List.mem_cons, not_or] at hk
    simp only [mapSet]
    rw [if_neg (fun h => hk.1 h.symm), ih hk.2]
    rfl

/-- Rows with pairwise distinct new keys are stored one after the other. -/
theorem build_distinct (parseInt : String → Except String Int) (rows : List Row)
    (m0 : ImageResult)
    (hall : ∀ r ∈ rows, r.origin = "mnist")
    (hparse : ∀ r ∈ rows, ∃ v, parseInt r.label = Except.ok v)
    (hnd : (rows.map Row.path).Nodup)
    (hdisj : ∀ r ∈ rows, r.path ∉ m0.map Prod.fst) :
    buildImageResultLoop parseInt (rows.map Row.fields) m0
      = Except.ok (m0 ++ rows.map (Row.entry parseInt)) := by
  induction rows generalizing m0 with
  | nil => simp [buildImageResultLoop]
  | cons r rs ih =>
    obtain ⟨v, hv⟩ := hparse r (List.mem_cons_self _ _)
    have hr := hall r (List.mem_cons_self _ _)
    rw [List.map_cons, List.nodup_cons] at hnd
    rw [List.map_cons, build_step]
    simp only [hr, if_true, hv]
    rw [mapSet_new m0 r.path v (hdisj r (List.mem_cons_self _ _))]
    rw [ih (m0 ++ [(r.path, v)]) (fun x hx => hall x (List.mem_cons_of_mem _ hx))
      (fun x hx => hparse x (List.mem_cons_of_mem _ hx)) hnd.2]
    · have he : Row.entry parseInt r = (r.path, v) := by
        simp [Row.entry, Row.value, hv]
      simp [he]
    · intro x hx hmem
      rw [List.map_append, List.mem_append] at hmem
      rcases hmem with h1 | h2
      · exact hdisj x (List.mem_cons_of_mem _ hx) h1
      · simp only [List.map_cons, List.map_nil, List.mem_singleton] at h2
        apply hnd.1
        rw [← h2]
        exact List.mem_map_of_mem _ hx

theorem valuesArr_set_eq_oneHot (l : Nat) (hl : l < 10) :
    valuesArrInit.set l (F64.fin 1) = oneHot l := by
  interval_cases l <;> rfl

/-- The records, read as (path, target) pairs, are the entries in order. -/
theorem records_of_entries (fs : Files) (entries : List (String × Int))
    (ds : List TransformedImagesWithResult)
    (h : List.Forall₂
        (fun e t => ∃ img, fs e.1 = Except.ok img ∧
          t = { Images := imgLoop img
                Value := valuesArrInit.set e.2.toNat (F64.fin 1)
                FilePath := e.1 })
        entries ds) :
    ds.map (fun t => (t.FilePath, t.Value))
      = entries.map (fun e => (e.1, valuesArrInit.set e.2.toNat (F64.fin 1))) := by
  induction h with
  | nil => rfl
  | cons hhead _ ih =>
    obtain ⟨img, _, rfl⟩ := hhead
    simp only [List.map_cons, ih]

end MnistExperiment

namespace MnistExperiment

/-- C9, as stated, fails: the two "mnist" rows of `dupManifest` have parseable
labels in `[0,9]` and a readable image but name the same file, the map keeps a
single entry (the later label, 5), and the dataset has one record, not two. -/
theorem one_example_per_mnist_row_counterexample :
    (∀ r ∈ mnistRows dupManifest,
      ∃ v, parseDigit r.label = Except.ok v ∧ 0 ≤ v ∧ v ≤ 9) ∧
    (∀ r ∈ mnistRows dupManifest, ∃ img, oneFile r.path = Except.ok img) ∧
    (mnistRows dupManifest).length = 2 ∧
    buildImageResult parseDigit (dupManifest.map Row.fields)
      = Except.ok [("./data/numbers/img3.png", 5)] ∧
    ∃ t, getTransformedImage oneFile [("./data/numbers/img3.png", 5)] = Except.ok [t] ∧
      t.Value = oneHot 5 ∧ [t].length ≠ (mnistRows dupManifest).length := by
  have hrows : mnistRows dupManifest = dupManifest := by rfl
  refine ⟨?_, ?_, by rfl, by rfl, ?_⟩
  · intro r hr
    rw [hrows] at hr
    simp only [dupManifest, List.mem_cons, List.mem_singleton, List.not_mem_nil,
      or_false] at hr
    rcases hr with rfl | rfl
    · exact ⟨3, by rfl, by decide, by decide⟩
    · exact ⟨5, by rfl, by decide, by decide⟩
  · intro r hr
    rw [hrows] at hr
    simp only [dupManifest, List.mem_cons, List.mem_singleton, List.not_mem_nil,
      or_false] at hr
    rcases hr with rfl | rfl
    · exact ⟨blackImage, by rfl⟩
    · exact ⟨blackImage, by rfl⟩
  · have hfs : oneFile "./data/numbers/img3.png" = Except.ok blackImage := by rfl
    have h := transformEntry_ok oneFile "./data/numbers/img3.png" 5 blackImage hfs
      (by decide) (by decide)
    refine ⟨{ Images := imgLoop blackImage
              Value := valuesArrInit.set (5 : Int).toNat (F64.fin 1)
              FilePath := "./data/numbers/img3.png" }, ?_, ?_, ?_⟩
    · simp only [getTransformedImage, getTransformedImageLoop, h, List.nil_append]
    · exact valuesArr_set_eq_oneHot 5 (by decide)
    · rw [hrows]
      decide

/-- C9, amended: when the "mnist" rows have parseable labels in `[0,9]`,
readable images and pairwise distinct file names, the map is built, and for
every order of iteration `getTransformedImage` returns exactly one record per
"mnist" row: as many records as rows, and the (path, target) pairs of the
records are, up to order, the paths of the rows with the one-hot vectors of
their labels. -/
theorem one_example_per_mnist_row (parseInt : String → Except String Int)
    (fs : Files) (manifest : List Row)
    (hparse : ∀ r ∈ mnistRows manifest,
      ∃ v, parseInt r.label = Except.ok v ∧ 0 ≤ v ∧ v ≤ 9)
    (hread : ∀ r ∈ mnistRows manifest, ∃ img, fs r.path = Except.ok img)
    (hdistinct : ((mnistRows manifest).map Row.file).Nodup) :
    ∃ m, buildImageResult parseInt (manifest.map Row.fields) = Except.ok m ∧
      ∀ iter : List (String × Int), iter.Perm m →
        ∃ ds, getTransformedImage fs iter = Except.ok ds ∧
          ds.length = (mnistRows manifest).length ∧
          (ds.map (fun t => (t.FilePath, t.Value))).Perm
            ((mnistRows manifest).map
              (fun r => (r.path, oneHot (r.value parseInt).toNat))) := by
  have hnd : ((mnistRows manifest).map Row.path).Nodup := by
    have hmap : (mnistRows manifest).map Row.path
        = ((mnistRows manifest).map Row.file).map (fun f => "./data/numbers/" ++ f) := by
      rw [List.map_map]
      rfl
    rw [hmap]
    refine List.Nodup.map ?_ hdistinct
    intro f1 f2 h12
    exact path_injective { origin := "", group := "", label := "", file := f1 }
      { origin := "", group := "", label := "", file := f2 } h12
  have hbuild : buildImageResult parseInt (manifest.map Row.fields)
      = Except.ok ((mnistRows manifest).map (Row.entry parseInt)) := by
    unfold buildImageResult
    rw [build_filter, build_distinct parseInt (mnistRows manifest) []
      (fun r hr => by
        have := (List.mem_filter.mp hr).2
        simpa using this)
      (fun r hr => by
        obtain ⟨v, hv, _⟩ := hparse r hr
        exact ⟨v, hv⟩)
      hnd (fun r _ => by simp)]
    rfl
  refine ⟨_, hbuild, ?_⟩
  intro iter hperm
  have hentry : ∀ e ∈ iter, ∃ r ∈ mnistRows manifest, e = Row.entry parseInt r := by
    intro e he
    obtain ⟨r, hr, hre⟩ := List.mem_map.mp (hperm.mem_iff.mp he)
    exact ⟨r, hr, hre.symm⟩
  have hvalue : ∀ r ∈ mnistRows manifest,
      0 ≤ r.value parseInt ∧ r.value parseInt ≤ 9 := by
    intro r hr
    obtain ⟨v, hv, h0, h9⟩ := hparse r hr
    simp only [Row.value, hv]
    exact ⟨h0, h9⟩
  obtain ⟨ds, hds, hall⟩ := getTransformedImage_total fs iter
    (fun e he => by
      obtain ⟨r, hr, rfl⟩ := hentry e he
      exact hread r hr)
    (fun e he => by
      obtain ⟨r, hr, rfl⟩ := hentry e he
      exact hvalue r hr)
  refine ⟨ds, hds, ?_, ?_⟩
  · rw [← hall.length_eq, hperm.length_eq, List.length_map]
  · rw [records_of_entries fs iter ds hall]
    have h1 := hperm.map (fun e => (e.1, valuesArrInit.set e.2.toNat (F64.fin 1)))
    rw [List.map_map] at h1
    have h2 : (mnistRows manifest).map
        ((fun e : String × Int => (e.1, valuesArrInit.set e.2.toNat (F64.fin 1)))
          ∘ Row.entry parseInt)
        = (mnistRows manifest).map
          (fun r => (r.path, oneHot (r.value parseInt).toNat)) := by
      apply List.map_congr_left
      intro r hr
      obtain ⟨h0, h9⟩ := hvalue r hr
      simp only [Function.comp, Row.entry]
      rw [valuesArr_set_eq_oneHot _ (by omega)]
    rw [h2] at h1
    exact h1

/-- C9, amended, on the scenario manifest: one "mnist" row, one record, whose
target is the one-hot vector of label 3. -/
theorem one_example_per_mnist_row_witness :
    ∃ m, buildImageResult parseDigit (scenarioManifest.map Row.fields) = Except.ok m ∧
      ∀ iter : List (String × Int), iter.Perm m →
        ∃ ds, getTransformedImage oneFile iter = Except.ok ds ∧
          ds.length = (mnistRows scenarioManifest).length ∧
          (ds.map (fun t => (t.FilePath, t.Value))).Perm
            ((mnistRows scenarioManifest).map
              (fun r => (r.path, oneHot (r.value parseDigit).toNat))) :=
  one_example_per_mnist_row parseDigit oneFile scenarioManifest
    (by
      intro r hr
      have hrows : mnistRows scenarioManifest = [img3Row] := by rfl
      rw [hrows, List.mem_singleton] at hr
      subst hr
      exact ⟨3, by rfl, by decide, by decide⟩)
    (by
      intro r hr
      have hrows : mnistRows scenarioManifest = [img3Row] := by rfl
      rw [hrows, List.mem_singleton] at hr
      subst hr
      exact ⟨blackImage, by rfl⟩)
    (by
      have hrows : mnistRows scenarioManifest = [img3Row] := by rfl
      rw [hrows]
      simp)

end MnistExperiment

namespace MnistExperiment

/-! ## Training -/

section TrainProofs

variable {N D : Type}

theorem reportLine_ok (env : Deep N D) (n : N)
    (ts : List TransformedImagesWithResult) (data : List Example) (i : Nat)
    (e : Event N) (h : reportLine env n ts data i = Except.ok e) :
    ∃ filePath value out, e = Event.report filePath value out := by
  unfold reportLine at h
  split at h
  · exact absurd h (by simp)
  · split at h
    · exact absurd h (by simp)
    · split at h
      · exact absurd h (by simp)
      · simp only [Except.ok.injEq] at h
        exact ⟨_, _, _, h.symm⟩

/-- The statements after the `defer` only call the trainer and print reports. -/
theorem trainBody_events (env : Deep N D) (n : N)
    (ts : List TransformedImagesWithResult) (data test : List Example) :
    ∀ e ∈ (trainBody env n ts data test).events,
      e = Event.trainerTrain data test iterations ∨
      ∃ filePath value out, e = Event.report filePath value out := by
  intro e he
  unfold trainBody at he
  split at he
  · simp only [List.mem_singleton] at he
    exact Or.inl he
  · split at he
    · simp only [List.mem_singleton] at he
      exact Or.inl he
    · rename_i e0 h0
      split at he
      · simp only [List.mem_cons, List.mem_singleton, List.not_mem_nil, or_false] at he
        rcases he with h | h
        · exact Or.inl h
        · exact Or.inr (h ▸ reportLine_ok _ _ _ _ _ _ h0)
      · rename_i e5 h5
        simp only [List.mem_cons, List.mem_singleton, List.not_mem_nil, or_false] at he
        rcases he with h | h | h
        · exact Or.inl h
        · exact Or.inr (h ▸ reportLine_ok _ _ _ _ _ _ h0)
        · exact Or.inr (h ▸ reportLine_ok _ _ _ _ _ _ h5)

theorem trainBody_net (env : Deep N D) (n : N)
    (ts : List TransformedImagesWithResult) (data test : List Example) :
    (trainBody env n ts data test).net
      = (env.trainerTrain n data test iterations).1 := by
  unfold trainBody
  split
  · rename_i h
    rw [h]
  · rename_i h
    rw [h]
    split
    · rfl
    · split <;> rfl

theorem persist_events (env : Deep N D) (n : N) :
    ∀ e ∈ (persist env n).events, e ≠ Event.newNeural := by
  intro e he
  unfold persist at he
  split at he
  · simp only [List.mem_singleton] at he
    rw [he]
    exact fun h => Event.noConfusion h
  · unfold dump at he
    split at he
    · simp only [List.mem_cons, List.mem_singleton, List.not_mem_nil, or_false] at he
      rcases he with h | h | h | h <;> rw [h] <;> exact fun h2 => Event.noConfusion h2
    · split at he <;>
        simp only [List.mem_cons, List.mem_singleton, List.not_mem_nil, or_false] at he <;>
        rcases he with h | h | h | h | h | h <;> rw [h] <;>
        exact fun h2 => Event.noConfusion h2

/-- What `loadNeuroFromDump` returns, by the three ways through it. -/
theorem loadNeuroFromDump_cases (env : Deep N D) :
    ((∃ err, env.readFile = Except.error err) ∧ (loadNeuroFromDump env).1 = none ∧
      Event.newNeural ∉ (loadNeuroFromDump env).2) ∨
    ((∃ bytes err, env.readFile = Except.ok bytes ∧
        Unmarshal env bytes = Except.error err) ∧ (loadNeuroFromDump env).1 = none ∧
      Event.newNeural ∉ (loadNeuroFromDump env).2) ∨
    (∃ bytes n, env.readFile = Except.ok bytes ∧ Unmarshal env bytes = Except.ok n ∧
      (loadNeuroFromDump env).1 = some n ∧
      Event.newNeural ∉ (loadNeuroFromDump env).2) := by
  unfold loadNeuroFromDump
  cases hr : env.readFile with
  | error err =>
    left
    exact ⟨⟨err, rfl⟩, rfl, by simp⟩
  | ok bytes =>
    right
    cases hu : Unmarshal env bytes with
    | error err =>
      left
      refine ⟨⟨bytes, err, rfl, hu⟩, ?_, ?_⟩ <;> simp [hu]
    | ok n =>
      right
      refine ⟨bytes, n, rfl, hu, ?_, ?_⟩ <;> simp [hu]

end TrainProofs

end MnistExperiment

namespace MnistExperiment

section TrainClaims

variable {N D : Type}

theorem loadOrInit_of_none (env : Deep N D) (h : (loadNeuroFromDump env).1 = none) :
    loadOrInit env
      = (env.newNeural, (loadNeuroFromDump env).2 ++ [Event.newNeural]) := by
  unfold loadOrInit
  generalize loadNeuroFromDump env = p at h
  obtain ⟨o, printed⟩ := p
  simp only at h
  subst h
  rfl

theorem loadOrInit_of_some (env : Deep N D) (n : N)
    (h : (loadNeuroFromDump env).1 = some n) :
    loadOrInit env = (n, (loadNeuroFromDump env).2) := by
  unfold loadOrInit
  generalize loadNeuroFromDump env = p at h
  obtain ⟨o, printed⟩ := p
  simp only at h
  subst h
  rfl

/-- A fresh network enters the trace of `train` only through `loadOrInit`. -/
theorem newNeural_mem_train (env : Deep N D) (ts : List TransformedImagesWithResult) :
    Event.newNeural ∈ (train env ts).events ↔ Event.newNeural ∈ (loadOrInit env).2 := by
  simp only [train, List.mem_append, List.mem_singleton]
  constructor
  · rintro (((h | h) | h) | h)
    · exact h
    · exact absurd h (fun h2 => Event.noConfusion h2)
    · rcases trainBody_events env _ ts _ _ _ h with h1 | ⟨_, _, _, h2⟩
      · exact absurd h1 (fun h2 => Event.noConfusion h2)
      · exact absurd h2 (fun h3 => Event.noConfusion h3)
    · exact absurd rfl (persist_events env _ _ h)
  · intro h
    exact Or.inl (Or.inl (Or.inl h))

/-- C6, as stated, fails: `corruptEnv` has a dump file whose bytes `Unmarshal`
rejects, and `train` prints the error, constructs a fresh network, trains it
and returns normally. -/
theorem corrupt_dump_is_fatal_counterexample :
    corruptEnv.readFile = Except.ok [123, 34] ∧
    Unmarshal corruptEnv [123, 34] = Except.error "unexpected end of JSON input" ∧
    loadOrInit corruptEnv
      = (corruptEnv.newNeural,
          [Event.printlnErr ["Can't unmarshal dump file"], Event.newNeural]) ∧
    Event.newNeural ∈ (train corruptEnv sixExamples).events ∧
    (train corruptEnv sixExamples).outcome = Outcome.returned := by
  refine ⟨rfl, rfl, rfl, ?_, rfl⟩
  rw [newNeural_mem_train]
  have h : loadOrInit corruptEnv
      = (corruptEnv.newNeural,
          [Event.printlnErr ["Can't unmarshal dump file"], Event.newNeural]) := rfl
  rw [h]
  simp

/-- C6, amended: `train` constructs a fresh network exactly when the dump
file cannot be read or its bytes are rejected by `Unmarshal`; in both cases
the fresh network is the one that is trained, a dump that is read and
unmarshalled is the one that is trained otherwise, and in every case the run
goes on to the log line after the load step. -/
theorem fresh_network_iff_load_failed (env : Deep N D)
    (ts : List TransformedImagesWithResult) :
    (Event.newNeural ∈ (train env ts).events ↔
      ((∃ err, env.readFile = Except.error err) ∨
        ∃ bytes err, env.readFile = Except.ok bytes ∧
          Unmarshal env bytes = Except.error err)) ∧
    (((∃ err, env.readFile = Except.error err) ∨
        ∃ bytes err, env.readFile = Except.ok bytes ∧
          Unmarshal env bytes = Except.error err) →
      (loadOrInit env).1 = env.newNeural) ∧
    (∀ bytes n, env.readFile = Except.ok bytes → Unmarshal env bytes = Except.ok n →
      (loadOrInit env).1 = n) ∧
    ∃ rest, (train env ts).events
      = (loadOrInit env).2 ++ Event.numWeights (env.numWeights (loadOrInit env).1) :: rest := by
  have hlast : ∃ rest, (train env ts).events
      = (loadOrInit env).2
        ++ Event.numWeights (env.numWeights (loadOrInit env).1) :: rest :=
    ⟨(trainBody env (loadOrInit env).1 ts (transformForNeuro ts)
        (transformForNeuro ts)).events
      ++ (persist env (trainBody env (loadOrInit env).1 ts (transformForNeuro ts)
        (transformForNeuro ts)).net).events,
     by simp only [train, List.append_assoc, List.singleton_append, List.cons_append,
       List.nil_append]⟩
  rw [newNeural_mem_train]
  rcases loadNeuroFromDump_cases env with ⟨⟨err, hr⟩, hnone, hnot⟩ |
    ⟨⟨bytes, err, hr, hu⟩, hnone, hnot⟩ | ⟨bytes, n, hr, hu, hsome, hnot⟩
  · rw [loadOrInit_of_none env hnone]
    refine ⟨?_, fun _ => rfl, ?_, ?_⟩
    · simp only [List.mem_append, List.mem_singleton, or_true, true_iff]
      exact Or.inl ⟨err, hr⟩
    · intro bytes n hb
      rw [hr] at hb
      exact absurd hb (by simp)
    · rw [← loadOrInit_of_none env hnone]
      exact hlast
  · rw [loadOrInit_of_none env hnone]
    refine ⟨?_, fun _ => rfl, ?_, ?_⟩
    · simp only [List.mem_append, List.mem_singleton, or_true, true_iff]
      exact Or.inr ⟨bytes, err, hr, hu⟩
    · intro bytes2 n hb hu2
      rw [hr] at hb
      simp only [Except.ok.injEq] at hb
      subst hb
      rw [hu] at hu2
      exact absurd hu2 (by simp)
    · rw [← loadOrInit_of_none env hnone]
      exact hlast
  · rw [loadOrInit_of_some env n hsome]
    have hno : ¬ ((∃ err, env.readFile = Except.error err) ∨
        ∃ bytes err, env.readFile = Except.ok bytes ∧
          Unmarshal env bytes = Except.error err) := by
      rintro (⟨err, he⟩ | ⟨bytes2, err, hb, hu2⟩)
      · rw [hr] at he
        exact absurd he (by simp)
      · rw [hr] at hb
        simp only [Except.ok.injEq] at hb
        subst hb
        rw [hu] at hu2
        exact absurd hu2 (by simp)
    refine ⟨?_, fun h => absurd h hno, ?_, ?_⟩
    · constructor
      · intro h
        exact absurd h hnot
      · intro h
        exact absurd h hno
    · intro bytes2 n2 hb hu2
      rw [hr] at hb
      simp only [Except.ok.injEq] at hb
      subst hb
      rw [hu] at hu2
      simp only [Except.ok.injEq] at hu2
      exact hu2
    · rw [← loadOrInit_of_some env n hsome]
      exact hlast

/-- C6, amended, on the first run (no dump file) with six records. -/
theorem fresh_network_iff_load_failed_witness :
    (firstRunEnv.readFile
        = Except.error "open ./dump.bin: no such file or directory") ∧
    ((Event.newNeural ∈ (train firstRunEnv sixExamples).events ↔
      ((∃ err, firstRunEnv.readFile = Except.error err) ∨
        ∃ bytes err, firstRunEnv.readFile = Except.ok bytes ∧
          Unmarshal firstRunEnv bytes = Except.error err)) ∧
    (((∃ err, firstRunEnv.readFile = Except.error err) ∨
        ∃ bytes err, firstRunEnv.readFile = Except.ok bytes ∧
          Unmarshal firstRunEnv bytes = Except.error err) →
      (loadOrInit firstRunEnv).1 = firstRunEnv.newNeural) ∧
    (∀ bytes n, firstRunEnv.readFile = Except.ok bytes →
      Unmarshal firstRunEnv bytes = Except.ok n → (loadOrInit firstRunEnv).1 = n) ∧
    ∃ rest, (train firstRunEnv sixExamples).events
      = (loadOrInit firstRunEnv).2
        ++ Event.numWeights (firstRunEnv.numWeights (loadOrInit firstRunEnv).1) :: rest) :=
  ⟨rfl, fresh_network_iff_load_failed firstRunEnv sixExamples⟩

end TrainClaims

end MnistExperiment

namespace MnistExperiment

section PersistClaims

variable {N D : Type}

/-- C7, as stated, fails: in `nanEnv` the epoch loop and both report lines
complete, `Marshal` then rejects the trained network, and the deferred
closure panics with that error before it reaches `dump`: no `dump` call is in
the trace. -/
theorem train_always_dumps_counterexample :
    (trainBody nanEnv (loadOrInit nanEnv).1 sixExamples
        (transformForNeuro sixExamples) (transformForNeuro sixExamples)).outcome
      = Outcome.returned ∧
    nanEnv.marshal (trainedNet nanEnv sixExamples)
      = Except.error "json: unsupported value: NaN" ∧
    (train nanEnv sixExamples).outcome
      = Outcome.panicked "json: unsupported value: NaN" ∧
    ∀ d, Event.dump d ∉ (train nanEnv sixExamples).events := by
  refine ⟨rfl, rfl, rfl, ?_⟩
  intro d hd
  simp only [train, List.mem_append, List.mem_singleton] at hd
  rcases hd with ((h | h) | h) | h
  · have hl : (loadOrInit nanEnv).2
        = [Event.println "Dump file can't be read :(", Event.printlnErr [],
           Event.newNeural] := rfl
    rw [hl] at h
    simp at h
  · exact Event.noConfusion h
  · rcases trainBody_events nanEnv _ sixExamples _ _ _ h with h1 | ⟨_, _, _, h2⟩
    · exact Event.noConfusion h1
    · exact Event.noConfusion h2
  · have hp : ∀ n, (persist nanEnv n).events = [Event.marshal n] := fun n => rfl
    rw [hp] at h
    simp at h

/-- C7, amended: whatever the example list and whatever the outcome of the
epoch loop and of the report lines, the deferred closure runs after them:
the trace of `train` holds the events of lines 205-213 and then the call of
`Marshal` on the trained network; when `Marshal` succeeds the next event is
the call of `dump` on its result, when `Marshal` fails nothing follows and
`train` panics with that error; and when the closure returns, `train` stops
the way lines 205-213 did (a panic goes on to the caller). -/
theorem train_runs_deferred_persist (env : Deep N D)
    (ts : List TransformedImagesWithResult) :
    ∃ pre rest, (train env ts).events
        = pre ++ Event.marshal (trainedNet env ts) :: rest ∧
      (∀ e ∈ (trainBody env (loadOrInit env).1 ts (transformForNeuro ts)
          (transformForNeuro ts)).events, e ∈ pre) ∧
      (∀ d, env.marshal (trainedNet env ts) = Except.ok d →
        ∃ rest2, rest = Event.dump d :: rest2) ∧
      (∀ err, env.marshal (trainedNet env ts) = Except.error err →
        rest = [] ∧ (train env ts).outcome = Outcome.panicked err) ∧
      ((persist env (trainedNet env ts)).outcome = Outcome.returned →
        (train env ts).outcome
          = (trainBody env (loadOrInit env).1 ts (transformForNeuro ts)
              (transformForNeuro ts)).outcome) := by
  have hnet : (trainBody env (loadOrInit env).1 ts (transformForNeuro ts)
      (transformForNeuro ts)).net = trainedNet env ts := by
    rw [trainBody_net]
    rfl
  have hev : (train env ts).events
      = ((loadOrInit env).2 ++ [Event.numWeights (env.numWeights (loadOrInit env).1)]
          ++ (trainBody env (loadOrInit env).1 ts (transformForNeuro ts)
              (transformForNeuro ts)).events)
        ++ (persist env (trainedNet env ts)).events := by
    rw [← hnet]
    rfl
  have hout : (train env ts).outcome
      = afterDefer (trainBody env (loadOrInit env).1 ts (transformForNeuro ts)
          (transformForNeuro ts)).outcome (persist env (trainedNet env ts)).outcome := by
    rw [← hnet]
    rfl
  cases hm : env.marshal (trainedNet env ts) with
  | error err =>
    have hp : persist env (trainedNet env ts)
        = { events := [Event.marshal (trainedNet env ts)]
            outcome := Outcome.panicked err } := by
      simp only [persist, hm]
    refine ⟨((loadOrInit env).2
        ++ [Event.numWeights (env.numWeights (loadOrInit env).1)]
        ++ (trainBody env (loadOrInit env).1 ts (transformForNeuro ts)
            (transformForNeuro ts)).events), [], ?_, ?_, ?_, ?_, ?_⟩
    · rw [hev, hp]
    · intro e he
      exact List.mem_append_right _ he
    · intro d hd
      exact absurd hd (by simp)
    · intro err2 herr2
      simp only [Except.error.injEq] at herr2
      subst herr2
      refine ⟨rfl, ?_⟩
      rw [hout, hp]
      rfl
    · intro hret
      rw [hp] at hret
      exact absurd hret (by simp)
  | ok d =>
    have hp : persist env (trainedNet env ts)
        = { events := Event.marshal (trainedNet env ts) :: (dump env d).events
            outcome := (dump env d).outcome } := by
      simp only [persist, hm]
    have hdump : ∃ rest2, (dump env d).events = Event.dump d :: rest2 := by
      unfold dump
      split
      · exact ⟨_, rfl⟩
      · split <;> exact ⟨_, rfl⟩
    refine ⟨((loadOrInit env).2
        ++ [Event.numWeights (env.numWeights (loadOrInit env).1)]
        ++ (trainBody env (loadOrInit env).1 ts (transformForNeuro ts)
            (transformForNeuro ts)).events),
      (dump env d).events, ?_, ?_, ?_, ?_, ?_⟩
    · rw [hev, hp]
    · intro e he
      exact List.mem_append_right _ he
    · intro d2 hd2
      simp only [Except.ok.injEq] at hd2
      subst hd2
      exact hdump
    · intro err herr
      exact absurd herr (by simp)
    · intro hret
      rw [hout, hret]
      rfl

/-- C7, amended, on a first run with three records: the epoch loop completes,
the report line 213 panics on `transformedImages[5]`, and the trace still
ends with the calls of `Marshal` and `dump` and the write of `dump.bin`. -/
theorem train_runs_deferred_persist_witness :
    (trainBody firstRunEnv (loadOrInit firstRunEnv).1 threeExamples
        (transformForNeuro threeExamples) (transformForNeuro threeExamples)).outcome
      = Outcome.panicked "index out of range" ∧
    (train firstRunEnv threeExamples).outcome = Outcome.panicked "index out of range" ∧
    (∃ pre, (train firstRunEnv threeExamples).events
      = pre ++ [Event.marshal 5, Event.dump [5], Event.println "dumping...",
          Event.create, Event.write [5], Event.close]) ∧
    ∃ pre rest, (train firstRunEnv threeExamples).events
        = pre ++ Event.marshal (trainedNet firstRunEnv threeExamples) :: rest ∧
      (∀ e ∈ (trainBody firstRunEnv (loadOrInit firstRunEnv).1 threeExamples
          (transformForNeuro threeExamples) (transformForNeuro threeExamples)).events,
        e ∈ pre) ∧
      (∀ d, firstRunEnv.marshal (trainedNet firstRunEnv threeExamples) = Except.ok d →
        ∃ rest2, rest = Event.dump d :: rest2) ∧
      (∀ err, firstRunEnv.marshal (trainedNet firstRunEnv threeExamples)
          = Except.error err →
        rest = [] ∧ (train firstRunEnv threeExamples).outcome = Outcome.panicked err) ∧
      ((persist firstRunEnv (trainedNet firstRunEnv threeExamples)).outcome
          = Outcome.returned →
        (train firstRunEnv threeExamples).outcome
          = (trainBody firstRunEnv (loadOrInit firstRunEnv).1 threeExamples
              (transformForNeuro threeExamples)
              (transformForNeuro threeExamples)).outcome) :=
  ⟨rfl, rfl, ⟨_, rfl⟩, train_runs_deferred_persist firstRunEnv threeExamples⟩

end PersistClaims

end MnistExperiment
